import Mathlib

/-!
Verification of the k-point symmetry-reduction engine
(`pyscf/pbc/lib/kpts.py`).

The combinatorial core of `make_kpts_ibz` / `make_kpairs_ibz` operates on the
mapping table `bz2bz_ks` (stored as `k2opk`) produced by `map_k_points_fast`:
an `(nkpts, nop)` integer array with `bz2bz_ks[k, s] = k'` when operation `s`
maps k-point `k` onto k-point `k'` (modulo a reciprocal lattice vector), and
`-1` when the image is absent from the mesh.  We embed the table as a function
`ℕ → ℕ → ℤ` with the same `-1` sentinel, and translate the numpy code line by
line, including the sentinel slot `nkpts` of `bz2bz_k` (numpy index `-1` is
the last slot) and the negative-index read in the construction of `bz2ibz`.

Tables produced by `map_k_points_fast` from a finite group of operations
acting on a mesh of pairwise-distinct points satisfy the `GoodTable`
predicate below: they are bounded, contain an identity column, and have
per-operation inverse and composition columns wherever images are defined.
The orbit-level theorems are proved under that hypothesis.
-/

namespace PbcKpts

section Engine

variable (M nop : ℕ) (tbl : ℕ → ℕ → ℤ)

/-- The slot of `bz2bz_k` written by `bz2bz_k[bz2bz_ks[k]] = k`:
numpy's index `-1` into the length-`M+1` array is its last slot `M`. -/
def toSlot (v : ℤ) : ℕ := if v = -1 then M else v.toNat

/-- One representative's claiming pass: `bz2bz_k[bz2bz_ks[k]] = k`
(kpts.py line 58), written per operation column. -/
def claimImages (k : ℕ) (A : ℕ → ℤ) : ℕ → ℤ :=
  (List.range nop).foldl (fun B s => Function.update B (toSlot M (tbl k s)) (k : ℤ)) A

/-- One iteration of the loop `for k in range(nkpts-1, -1, -1)` in
`make_kpts_ibz` (kpts.py lines 56-59): state is the claim array `bz2bz_k`
(length `M+1`, sentinel slot included) and the accumulating `ibz2bz_k` list. -/
def claimStep (st : (ℕ → ℤ) × List ℕ) (k : ℕ) : (ℕ → ℤ) × List ℕ :=
  if st.1 k = -1 then (claimImages M nop tbl k st.1, st.2 ++ [k]) else st

/-- The claim loop after `c` iterations (indices `M-1, M-2, …, M-c` processed),
starting from `bz2bz_k = -ones(M+1)` and `ibz2bz_k = []`. -/
def claimAux : ℕ → (ℕ → ℤ) × List ℕ
  | 0 => (fun _ => (-1 : ℤ), ([] : List ℕ))
  | c + 1 => claimStep M nop tbl (claimAux c) (M - (c + 1))

/-- The final claim array `bz2bz_k` (kpts.py line 61; we keep the function on
all of `ℕ`, the sentinel slot `M` is never read back). -/
def bz2bz_k : ℕ → ℤ := (claimAux M nop tbl M).1

/-- `ibz2bz_k = np.array(ibz2bz_k[::-1])` (kpts.py line 60): the loop appends
representatives in decreasing order, the reversal makes the list ascending. -/
def ibz2bz : List ℕ := (claimAux M nop tbl M).2.reverse

/-- `nkpts_ibz = len(kpts.kpts_ibz)` (kpts.py line 72). -/
def nkpts_ibz : ℕ := (ibz2bz M nop tbl).length

/-- The scatter `bz2ibz_k[ibz2bz_k] = np.arange(len(ibz2bz_k))` (kpts.py
line 64) into an `np.empty(nkpts)` array; the unwritten slots (modelled as 0)
are never read back under `GoodTable`. -/
def bz2ibzTemp : ℕ → ℕ :=
  (List.range (nkpts_ibz M nop tbl)).foldl
    (fun t j => Function.update t ((ibz2bz M nop tbl).getD j 0) j) (fun _ => 0)

/-- `bz2ibz_k = bz2ibz_k[bz2bz_k]` (kpts.py line 65); a `-1` entry of
`bz2bz_k` would read the last slot `M-1` by numpy's negative indexing. -/
def bz2ibz (k : ℕ) : ℕ :=
  bz2ibzTemp M nop tbl
    (if bz2bz_k M nop tbl k = -1 then M - 1 else (bz2bz_k M nop tbl k).toNat)

/-- `idx = np.where(kpts.bz2ibz == i)[0]; kpts.stars.append(idx)` (kpts.py
lines 91-92). -/
def stars (i : ℕ) : List ℕ :=
  (List.range M).filter (fun k => decide (bz2ibz M nop tbl k = i))

/-- `kpts.weights_ibz = np.bincount(bz2ibz_k) * (1.0/nkpts)` (kpts.py
line 69), with exact rationals in place of floating point. -/
def weights_ibz (i : ℕ) : ℚ :=
  ((List.range M).countP (fun k => decide (bz2ibz M nop tbl k = i)) : ℚ) * (1 / (M : ℚ))

end Engine

section TableSpec

variable (M nop : ℕ) (tbl : ℕ → ℕ → ℤ)

/-- Two mesh indices are related when some operation column of the table maps
one to the other. -/
def opRel (k j : ℕ) : Prop := k < M ∧ j < M ∧ ∃ s < nop, tbl k s = (j : ℤ)

instance (k j : ℕ) : Decidable (opRel M nop tbl k j) := by
  unfold opRel; infer_instance

/-- The orbit of a mesh index under the table, as the list of related indices. -/
def orbitL (k : ℕ) : List ℕ :=
  (List.range M).filter (fun j => decide (opRel M nop tbl k j))

/-- The largest member of the orbit of `k` (the representative that the
decreasing-index claim loop selects). -/
def maxOrbit (k : ℕ) : ℕ := (orbitL M nop tbl k).foldl max 0

/-- Structural properties of a mapping table produced by `map_k_points_fast`
from a finite operation group acting on a mesh of pairwise-distinct points:
entries are `-1` or valid indices; some column is the identity; and for each
column there are inverse and composition columns, valid wherever the images
are defined. -/
def GoodTable : Prop :=
  (∀ k < M, ∀ s < nop, tbl k s = -1 ∨ (0 ≤ tbl k s ∧ tbl k s < (M : ℤ))) ∧
  (∃ s0 < nop, ∀ k < M, tbl k s0 = (k : ℤ)) ∧
  (∀ s < nop, ∃ s' < nop, ∀ k < M, ∀ j < M, tbl k s = (j : ℤ) → tbl j s' = (k : ℤ)) ∧
  (∀ s < nop, ∀ s' < nop, ∃ s2 < nop, ∀ k < M, ∀ j < M, ∀ i < M,
    tbl k s = (j : ℤ) → tbl j s' = (i : ℤ) → tbl k s2 = (i : ℤ))

instance : Decidable (GoodTable M nop tbl) := by
  unfold GoodTable
  letI i1 : ∀ s s' : ℕ, Decidable (∃ s2 < nop, ∀ k < M, ∀ j < M, ∀ i < M,
      tbl k s = (j : ℤ) → tbl j s' = (i : ℤ) → tbl k s2 = (i : ℤ)) := fun s s' => inferInstance
  letI i2 : ∀ s : ℕ, Decidable (∀ s' < nop, ∃ s2 < nop, ∀ k < M, ∀ j < M, ∀ i < M,
      tbl k s = (j : ℤ) → tbl j s' = (i : ℤ) → tbl k s2 = (i : ℤ)) := fun s =>
    @Nat.decidableBallLT nop _ (fun s' _ => i1 s s')
  letI i3 : Decidable (∀ s < nop, ∀ s' < nop, ∃ s2 < nop, ∀ k < M, ∀ j < M, ∀ i < M,
      tbl k s = (j : ℤ) → tbl j s' = (i : ℤ) → tbl k s2 = (i : ℤ)) :=
    @Nat.decidableBallLT nop _ (fun s _ => i2 s)
  infer_instance

end TableSpec

section Pairs

variable (N nop : ℕ) (tbl : ℕ → ℕ → ℤ)

/-- The pair mapping table `bz2bz_ksks` of `make_kpairs_ibz` (kpts.py lines
122-132): ordered pairs are flattened row-major (`pair = i*N + j`), the image
of a pair under column `s` is the flattened pair of images, `-1` when either
component image is undefined. -/
def pairTbl (p s : ℕ) : ℤ :=
  if tbl (p / N) s = -1 ∨ tbl (p % N) s = -1 then -1
  else tbl (p / N) s * N + tbl (p % N) s

/-- `kpts.ibz2bz_kk` (kpts.py lines 133-151): the single-point claim loop run
on the flattened pair space of size `N²`. -/
def ibz2bz_kk : List ℕ := ibz2bz (N * N) nop (pairTbl N tbl)

/-- `kpts.bz2ibz_kk` (kpts.py lines 155-160). -/
def bz2ibz_kk : ℕ → ℕ := bz2ibz (N * N) nop (pairTbl N tbl)

/-- `kpts.ibz_kk_weight = np.bincount(bz2ibz_kk) * (1.0/nbzk2)` (kpts.py
line 163). -/
def ibz_kk_weight : ℕ → ℚ := weights_ibz (N * N) nop (pairTbl N tbl)

/-- The sorted component pair of entry `t` of a flattened-pair list
(`idx_ij_sort`, kpts.py lines 166-169). -/
def sortedPairAt (l : List ℕ) (t : ℕ) : ℕ × ℕ :=
  ((l.getD t 0 / N) ⊓ (l.getD t 0 % N), (l.getD t 0 / N) ⊔ (l.getD t 0 % N))

/-- `_, idx_ij_s2 = np.unique(idx_ij_sort, axis=1, return_index=True)`
(kpts.py line 170): for each distinct sorted component pair, in lexicographic
order, the first position in `ibz2bz_kk` carrying it. -/
def idx_ij_s2 : List ℕ :=
  (List.range N).flatMap (fun a =>
    (List.range N).filterMap (fun b =>
      if a ≤ b then
        (List.range (ibz2bz_kk N nop tbl).length).find?
          (fun t => decide (sortedPairAt N (ibz2bz_kk N nop tbl) t = (a, b)))
      else none))

/-- `kpts.ibz2bz_kk_s2 = ibz2bz_kk[idx_ij_s2]` (kpts.py line 171). -/
def ibz2bz_kk_s2 : List ℕ :=
  (idx_ij_s2 N nop tbl).map (fun t => (ibz2bz_kk N nop tbl).getD t 0)

/-- The weight of merged entry `t` after the two in-place passes of kpts.py
lines 175-183: start from the copied `ibz_kk_weight[idx_ij_s2]`, double the
entries whose representative has distinct components (line 180), then halve
the entries whose swapped pair is absent from `ibz2bz_kk` (lines 181-183). -/
def s2EntryWeight (t : ℕ) : ℚ :=
  let r := (ibz2bz_kk N nop tbl).getD t 0
  let w0 := ibz_kk_weight N nop tbl t
  let w1 := if r / N ≠ r % N then w0 * 2 else w0
  if (r % N) * N + r / N ∈ ibz2bz_kk N nop tbl then w1 else w1 / 2

/-- `kpts.ibz_kk_s2_weight` after `make_kpairs_ibz` with
`permutation_symmetry=True` (kpts.py lines 175-183). -/
def ibz_kk_s2_weight : List ℚ :=
  (idx_ij_s2 N nop tbl).map (s2EntryWeight N nop tbl)

/-- The swap `(i,j) ↦ (j,i)` on flattened pairs (`idx_ji`, kpts.py line 179). -/
def swapP (p : ℕ) : ℕ := (p % N) * N + p / N

/-- The pair bookkeeping written onto the `KPoints` object by
`make_kpairs_ibz` (kpts.py lines 104-183); the `_s2` fields are only written
when `permutation_symmetry` is requested. -/
structure KPairState where
  ibz2bz_kk : List ℕ
  bz2ibz_kk : ℕ → ℕ
  ibz_kk_weight : ℕ → ℚ
  ibz2bz_kk_s2 : Option (List ℕ)
  ibz_kk_s2_weight : Option (List ℚ)

/-- `make_kpairs_ibz(kpts, permutation_symmetry)` (kpts.py lines 104-183):
first the unreduced pair bookkeeping is computed and stored, then, if
requested, the permutation-reduction step adds the `_s2` fields. -/
def make_kpairs_ibz (permutation_symmetry : Bool) : KPairState :=
  let base : KPairState :=
    ⟨ibz2bz_kk N nop tbl, bz2ibz_kk N nop tbl, ibz_kk_weight N nop tbl, none, none⟩
  if permutation_symmetry then
    ⟨base.ibz2bz_kk, base.bz2ibz_kk, base.ibz_kk_weight,
      some (ibz2bz_kk_s2 N nop tbl), some (ibz_kk_s2_weight N nop tbl)⟩
  else base

end Pairs

section EngineLemmas

variable {M nop : ℕ} {tbl : ℕ → ℕ → ℤ}

theorem init_le_foldl_max (l : List ℕ) (a : ℕ) : a ≤ l.foldl max a := by
  induction l generalizing a with
  | nil => exact le_rfl
  | cons y l ih => exact le_trans (le_max_left a y) (ih (max a y))

theorem le_foldl_max {x : ℕ} (l : List ℕ) (a : ℕ) (hx : x ∈ l) : x ≤ l.foldl max a := by
  induction l generalizing a with
  | nil => cases hx
  | cons y l ih =>
    rw [List.foldl_cons]
    rcases List.mem_cons.mp hx with h | h
    · subst h
      exact le_trans (le_max_right a x) (init_le_foldl_max l (max a x))
    · exact ih (max a y) h

theorem foldl_max_mem (l : List ℕ) (a : ℕ) : l.foldl max a = a ∨ l.foldl max a ∈ l := by
  induction l generalizing a with
  | nil => exact Or.inl rfl
  | cons y l ih =>
    rw [List.foldl_cons]
    rcases ih (max a y) with h | h
    · rw [h]
      rcases max_choice a y with h2 | h2
      · exact Or.inl h2
      · right
        rw [h2]
        exact List.mem_cons_self y l
    · exact Or.inr (List.mem_cons_of_mem y h)

theorem opRel_refl (h : GoodTable M nop tbl) {k : ℕ} (hk : k < M) :
    opRel M nop tbl k k := by
  obtain ⟨s0, hs0, hid⟩ := h.2.1
  exact ⟨hk, hk, s0, hs0, hid k hk⟩

theorem opRel_symm (h : GoodTable M nop tbl) {k j : ℕ} (hrel : opRel M nop tbl k j) :
    opRel M nop tbl j k := by
  obtain ⟨hk, hj, s, hs, hts⟩ := hrel
  obtain ⟨s', hs', hinv⟩ := h.2.2.1 s hs
  exact ⟨hj, hk, s', hs', hinv k hk j hj hts⟩

theorem opRel_trans (h : GoodTable M nop tbl) {k j i : ℕ}
    (h1 : opRel M nop tbl k j) (h2 : opRel M nop tbl j i) : opRel M nop tbl k i := by
  obtain ⟨hk, hj, s, hs, hts⟩ := h1
  obtain ⟨-, hi, s', hs', hts'⟩ := h2
  obtain ⟨s2, hs2, hcomp⟩ := h.2.2.2 s hs s' hs'
  exact ⟨hk, hi, s2, hs2, hcomp k hk j hj i hi hts hts'⟩

theorem mem_orbitL {k j : ℕ} : j ∈ orbitL M nop tbl k ↔ opRel M nop tbl k j := by
  simp only [orbitL, List.mem_filter, List.mem_range, decide_eq_true_eq]
  exact ⟨fun h => h.2, fun h => ⟨h.2.1, h⟩⟩

theorem orbitL_congr (h : GoodTable M nop tbl) {k j : ℕ}
    (hrel : opRel M nop tbl k j) : orbitL M nop tbl k = orbitL M nop tbl j := by
  apply List.filter_congr
  intro x _
  rw [decide_eq_decide]
  exact ⟨fun hx => opRel_trans h (opRel_symm h hrel) hx, fun hx => opRel_trans h hrel hx⟩

theorem maxOrbit_lt {k : ℕ} (hk : k < M) : maxOrbit M nop tbl k < M := by
  rcases foldl_max_mem (orbitL M nop tbl k) 0 with h | h
  · rw [maxOrbit, h]; omega
  · exact (mem_orbitL.mp h).2.1

theorem maxOrbit_mem (h : GoodTable M nop tbl) {k : ℕ} (hk : k < M) :
    maxOrbit M nop tbl k ∈ orbitL M nop tbl k := by
  have hself : k ∈ orbitL M nop tbl k := mem_orbitL.mpr (opRel_refl h hk)
  rcases foldl_max_mem (orbitL M nop tbl k) 0 with h0 | h0
  · have hle : k ≤ (orbitL M nop tbl k).foldl max 0 := le_foldl_max _ 0 hself
    rw [h0] at hle
    have hk0 : k = 0 := by omega
    rw [maxOrbit, h0, ← hk0]
    exact hself
  · rw [maxOrbit]
    exact h0

theorem opRel_maxOrbit (h : GoodTable M nop tbl) {k : ℕ} (hk : k < M) :
    opRel M nop tbl k (maxOrbit M nop tbl k) :=
  mem_orbitL.mp (maxOrbit_mem h hk)

theorem le_maxOrbit_of_rel {k j : ℕ} (hrel : opRel M nop tbl k j) :
    j ≤ maxOrbit M nop tbl k :=
  le_foldl_max _ 0 (mem_orbitL.mpr hrel)

theorem self_le_maxOrbit (h : GoodTable M nop tbl) {k : ℕ} (hk : k < M) :
    k ≤ maxOrbit M nop tbl k :=
  le_maxOrbit_of_rel (opRel_refl h hk)

theorem maxOrbit_eq_of_rel (h : GoodTable M nop tbl) {k j : ℕ}
    (hrel : opRel M nop tbl k j) : maxOrbit M nop tbl k = maxOrbit M nop tbl j := by
  rw [maxOrbit, maxOrbit, orbitL_congr h hrel]

theorem maxOrbit_idem (h : GoodTable M nop tbl) {k : ℕ} (hk : k < M) :
    maxOrbit M nop tbl (maxOrbit M nop tbl k) = maxOrbit M nop tbl k :=
  (maxOrbit_eq_of_rel h (opRel_maxOrbit h hk)).symm

theorem update_foldl_apply (k j : ℕ) (hj : j < M) (l : List ℕ) (A : ℕ → ℤ) :
    (l.foldl (fun B s => Function.update B (toSlot M (tbl k s)) (k : ℤ)) A) j
      = if ∃ s ∈ l, toSlot M (tbl k s) = j then (k : ℤ) else A j := by
  induction l generalizing A with
  | nil => simp
  | cons s0 l ih =>
    rw [List.foldl_cons, ih]
    by_cases hrest : ∃ s ∈ l, toSlot M (tbl k s) = j
    · obtain ⟨s, hsl, hss⟩ := hrest
      rw [if_pos ⟨s, hsl, hss⟩, if_pos ⟨s, List.mem_cons_of_mem s0 hsl, hss⟩]
    · rw [if_neg hrest]
      by_cases hs : toSlot M (tbl k s0) = j
      · rw [if_pos ⟨s0, List.mem_cons_self s0 l, hs⟩, ← hs, Function.update_same]
      · rw [if_neg (fun hcon => by
            obtain ⟨s, hsl, hss⟩ := hcon
            rcases List.mem_cons.mp hsl with h | h
            · exact hs (h ▸ hss)
            · exact hrest ⟨s, h, hss⟩),
          Function.update_noteq (fun he => hs he.symm)]

theorem claimImages_apply
    (hb : ∀ k < M, ∀ s < nop, tbl k s = -1 ∨ (0 ≤ tbl k s ∧ tbl k s < (M : ℤ)))
    {k : ℕ} (hk : k < M) (A : ℕ → ℤ) {j : ℕ} (hj : j < M) :
    claimImages M nop tbl k A j
      = if ∃ s < nop, tbl k s = (j : ℤ) then (k : ℤ) else A j := by
  have hiff : (∃ s ∈ List.range nop, toSlot M (tbl k s) = j)
      ↔ (∃ s < nop, tbl k s = (j : ℤ)) := by
    constructor
    · rintro ⟨s, hsmem, hss⟩
      have hs : s < nop := List.mem_range.mp hsmem
      rcases hb k hk s hs with hneg | ⟨h0, hlt⟩
      · simp only [toSlot, if_pos hneg] at hss
        omega
      · simp only [toSlot] at hss
        rw [if_neg (by omega)] at hss
        exact ⟨s, hs, by omega⟩
    · rintro ⟨s, hs, hss⟩
      refine ⟨s, List.mem_range.mpr hs, ?_⟩
      simp only [toSlot]
      rw [if_neg (by omega), hss]
      omega
  rw [claimImages, update_foldl_apply k j hj (List.range nop) A, if_congr hiff rfl rfl]

theorem claimAux_spec (h : GoodTable M nop tbl) :
    ∀ c, c ≤ M →
      (∀ j, j < M → (claimAux M nop tbl c).1 j =
        if M - c ≤ maxOrbit M nop tbl j then ((maxOrbit M nop tbl j : ℕ) : ℤ) else -1)
      ∧ (claimAux M nop tbl c).2 =
        ((List.range' (M - c) c).filter (fun r => decide (maxOrbit M nop tbl r = r))).reverse := by
  intro c
  induction c with
  | zero =>
    intro _
    constructor
    · intro j hj
      have hlt := @maxOrbit_lt M nop tbl j hj
      simp only [claimAux]
      rw [if_neg (by omega)]
    · simp [claimAux]
  | succ c ih =>
    intro hc1
    have hc : c ≤ M := Nat.le_of_succ_le hc1
    obtain ⟨ihA, ihR⟩ := ih hc
    have hkM : M - (c + 1) < M := by omega
    have hMc : M - c = (M - (c + 1)) + 1 := by omega
    have hAk : (claimAux M nop tbl c).1 (M - (c + 1))
        = if (M - (c + 1)) + 1 ≤ maxOrbit M nop tbl (M - (c + 1))
          then ((maxOrbit M nop tbl (M - (c + 1)) : ℕ) : ℤ) else -1 := by
      rw [ihA (M - (c + 1)) hkM, hMc]
    by_cases hmax : maxOrbit M nop tbl (M - (c + 1)) = M - (c + 1)
    · have hAk' : (claimAux M nop tbl c).1 (M - (c + 1)) = -1 := by
        rw [hAk, if_neg (by omega)]
      have hstep : claimAux M nop tbl (c + 1)
          = (claimImages M nop tbl (M - (c + 1)) (claimAux M nop tbl c).1,
             (claimAux M nop tbl c).2 ++ [M - (c + 1)]) := by
        simp only [claimAux, claimStep, hAk', if_pos]
      have hstep1 : (claimAux M nop tbl (c + 1)).1
          = claimImages M nop tbl (M - (c + 1)) (claimAux M nop tbl c).1 := by
        rw [hstep]
      constructor
      · intro j hj
        rw [hstep1]
        rw [claimImages_apply h.1 hkM _ hj]
        by_cases hrel : ∃ s < nop, tbl (M - (c + 1)) s = (j : ℤ)
        · rw [if_pos hrel]
          have hrel' : opRel M nop tbl (M - (c + 1)) j := ⟨hkM, hj, hrel⟩
          have hmj : maxOrbit M nop tbl j = M - (c + 1) := by
            rw [← maxOrbit_eq_of_rel h hrel', hmax]
          rw [hmj, if_pos (le_refl _)]
        · rw [if_neg hrel, ihA j hj, hMc]
          have hne : maxOrbit M nop tbl j ≠ M - (c + 1) := by
            intro heq
            have hmem : opRel M nop tbl j (maxOrbit M nop tbl j) := opRel_maxOrbit h hj
            rw [heq] at hmem
            exact hrel (opRel_symm h hmem).2.2
          by_cases hle : (M - (c + 1)) + 1 ≤ maxOrbit M nop tbl j
          · rw [if_pos hle, if_pos (by omega)]
          · rw [if_neg hle, if_neg (by omega)]
      · rw [hstep]
        show (claimAux M nop tbl c).2 ++ [M - (c + 1)] = _
        rw [ihR, hMc]
        have hrange : List.range' (M - (c + 1)) (c + 1)
            = (M - (c + 1)) :: List.range' ((M - (c + 1)) + 1) c := rfl
        rw [hrange, List.filter_cons, if_pos (by simpa using hmax)]
        rw [List.reverse_cons]
    · have hgt : M - (c + 1) < maxOrbit M nop tbl (M - (c + 1)) :=
        lt_of_le_of_ne (self_le_maxOrbit h hkM) (Ne.symm hmax)
      have hAk' : (claimAux M nop tbl c).1 (M - (c + 1))
          = ((maxOrbit M nop tbl (M - (c + 1)) : ℕ) : ℤ) := by
        rw [hAk, if_pos (by omega)]
      have hne1 : (claimAux M nop tbl c).1 (M - (c + 1)) ≠ -1 := by
        rw [hAk']
        intro hcontr
        omega
      have hstep : claimAux M nop tbl (c + 1) = claimAux M nop tbl c := by
        simp only [claimAux, claimStep, if_neg hne1]
      constructor
      · intro j hj
        rw [hstep, ihA j hj, hMc]
        have hne2 : maxOrbit M nop tbl j ≠ M - (c + 1) := by
          intro heq
          have hidem := maxOrbit_idem h hj
          rw [heq] at hidem
          exact hmax hidem
        by_cases hle : (M - (c + 1)) + 1 ≤ maxOrbit M nop tbl j
        · rw [if_pos hle, if_pos (by omega)]
        · rw [if_neg hle, if_neg (by omega)]
      · rw [hstep, ihR, hMc]
        have hrange : List.range' (M - (c + 1)) (c + 1)
            = (M - (c + 1)) :: List.range' ((M - (c + 1)) + 1) c := rfl
        rw [hrange, List.filter_cons, if_neg (by simpa using hmax)]

end EngineLemmas


section EngineMaster

variable {M nop : ℕ} {tbl : ℕ → ℕ → ℤ}

theorem bz2bz_k_eq (h : GoodTable M nop tbl) {j : ℕ} (hj : j < M) :
    bz2bz_k M nop tbl j = ((maxOrbit M nop tbl j : ℕ) : ℤ) := by
  have hspec := (claimAux_spec h M le_rfl).1 j hj
  rw [bz2bz_k, hspec, if_pos (by omega)]

theorem ibz2bz_eq (h : GoodTable M nop tbl) :
    ibz2bz M nop tbl = (List.range M).filter (fun r => decide (maxOrbit M nop tbl r = r)) := by
  have hspec := (claimAux_spec h M le_rfl).2
  rw [ibz2bz, hspec, List.reverse_reverse, Nat.sub_self, ← List.range_eq_range']

theorem mem_ibz2bz (h : GoodTable M nop tbl) {r : ℕ} :
    r ∈ ibz2bz M nop tbl ↔ r < M ∧ maxOrbit M nop tbl r = r := by
  rw [ibz2bz_eq h]
  simp [List.mem_filter]

theorem ibz2bz_nodup (h : GoodTable M nop tbl) : (ibz2bz M nop tbl).Nodup := by
  rw [ibz2bz_eq h]
  exact (List.nodup_range M).filter _

theorem scatter_foldl_apply (l : List ℕ) (hnd : l.Nodup) (z : ℕ → ℕ) :
    ∀ n, n ≤ l.length → ∀ t, t < n →
      ((List.range n).foldl (fun f j => Function.update f (l.getD j 0) j) z) (l.getD t 0) = t := by
  intro n
  induction n with
  | zero => intro _ t ht; omega
  | succ m ihm =>
    intro hn t ht
    rw [List.range_succ, List.foldl_append, List.foldl_cons, List.foldl_nil]
    by_cases htm : t = m
    · subst htm
      rw [Function.update_same]
    · have ht' : t < l.length := by omega
      have hm' : m < l.length := by omega
      have hne : l.getD t 0 ≠ l.getD m 0 := by
        intro he
        rw [List.getD_eq_getElem l 0 ht', List.getD_eq_getElem l 0 hm'] at he
        exact htm ((List.Nodup.getElem_inj_iff hnd).mp he)
      rw [Function.update_noteq hne]
      exact ihm (by omega) t (by omega)

theorem bz2ibzTemp_at (h : GoodTable M nop tbl) {t : ℕ} (ht : t < nkpts_ibz M nop tbl) :
    bz2ibzTemp M nop tbl ((ibz2bz M nop tbl).getD t 0) = t := by
  exact scatter_foldl_apply (ibz2bz M nop tbl) (ibz2bz_nodup h) (fun _ => 0)
    (nkpts_ibz M nop tbl) le_rfl t ht

theorem maxOrbit_mem_ibz2bz (h : GoodTable M nop tbl) {k : ℕ} (hk : k < M) :
    maxOrbit M nop tbl k ∈ ibz2bz M nop tbl :=
  (mem_ibz2bz h).mpr ⟨maxOrbit_lt hk, maxOrbit_idem h hk⟩

theorem bz2ibz_eq_temp (h : GoodTable M nop tbl) {k : ℕ} (hk : k < M) :
    bz2ibz M nop tbl k = bz2ibzTemp M nop tbl (maxOrbit M nop tbl k) := by
  rw [bz2ibz, bz2bz_k_eq h hk, if_neg (by omega)]
  congr 1

theorem bz2ibz_spec (h : GoodTable M nop tbl) {k : ℕ} (hk : k < M) :
    bz2ibz M nop tbl k < nkpts_ibz M nop tbl ∧
    (ibz2bz M nop tbl).getD (bz2ibz M nop tbl k) 0 = maxOrbit M nop tbl k := by
  obtain ⟨t, ht, hgt⟩ := List.mem_iff_getElem.mp (maxOrbit_mem_ibz2bz h hk)
  have hgd : (ibz2bz M nop tbl).getD t 0 = maxOrbit M nop tbl k := by
    rw [List.getD_eq_getElem _ _ ht]
    exact hgt
  have hbt : bz2ibz M nop tbl k = t := by
    rw [bz2ibz_eq_temp h hk, ← hgd, bz2ibzTemp_at h ht]
  rw [hbt]
  exact ⟨ht, hgd⟩

theorem bz2ibz_lt (h : GoodTable M nop tbl) {k : ℕ} (hk : k < M) :
    bz2ibz M nop tbl k < nkpts_ibz M nop tbl := (bz2ibz_spec h hk).1

theorem bz2ibz_eq_pos (h : GoodTable M nop tbl) {k t : ℕ} (hk : k < M)
    (ht : t < nkpts_ibz M nop tbl) :
    bz2ibz M nop tbl k = t ↔ maxOrbit M nop tbl k = (ibz2bz M nop tbl).getD t 0 := by
  constructor
  · intro he
    rw [← (bz2ibz_spec h hk).2, he]
  · intro he
    rw [bz2ibz_eq_temp h hk, he, bz2ibzTemp_at h ht]

theorem bz2ibz_congr (h : GoodTable M nop tbl) {k j : ℕ} (hk : k < M) (hj : j < M)
    (hrel : opRel M nop tbl k j) : bz2ibz M nop tbl k = bz2ibz M nop tbl j := by
  rw [bz2ibz_eq_temp h hk, bz2ibz_eq_temp h hj, maxOrbit_eq_of_rel h hrel]

theorem getD_ibz2bz_mem (h : GoodTable M nop tbl) {t : ℕ} (ht : t < nkpts_ibz M nop tbl) :
    (ibz2bz M nop tbl).getD t 0 ∈ ibz2bz M nop tbl := by
  rw [List.getD_eq_getElem _ _ ht]
  exact List.getElem_mem ht

theorem countP_range_eq_card (n : ℕ) (p : ℕ → Prop) [DecidablePred p] :
    (List.range n).countP (fun k => decide (p k)) = ((Finset.range n).filter p).card := by
  rw [List.countP_eq_length_filter]
  rfl

theorem weights_ibz_eq_card (i : ℕ) :
    weights_ibz M nop tbl i
      = (((Finset.range M).filter (fun k => bz2ibz M nop tbl k = i)).card : ℚ) * (1 / (M : ℚ)) := by
  rw [weights_ibz, countP_range_eq_card]

theorem weights_ibz_sum (h : GoodTable M nop tbl) (hM : 0 < M) :
    ∑ i ∈ Finset.range (nkpts_ibz M nop tbl), weights_ibz M nop tbl i = 1 := by
  have hcard : (Finset.range M).card
      = ∑ i ∈ Finset.range (nkpts_ibz M nop tbl),
          ((Finset.range M).filter (fun k => bz2ibz M nop tbl k = i)).card :=
    Finset.card_eq_sum_card_fiberwise
      (fun k hk => Finset.mem_range.mpr (bz2ibz_lt h (Finset.mem_range.mp hk)))
  calc ∑ i ∈ Finset.range (nkpts_ibz M nop tbl), weights_ibz M nop tbl i
      = ∑ i ∈ Finset.range (nkpts_ibz M nop tbl),
          (((Finset.range M).filter (fun k => bz2ibz M nop tbl k = i)).card : ℚ) * (1 / (M : ℚ)) :=
        Finset.sum_congr rfl (fun i _ => weights_ibz_eq_card i)
    _ = (∑ i ∈ Finset.range (nkpts_ibz M nop tbl),
          (((Finset.range M).filter (fun k => bz2ibz M nop tbl k = i)).card : ℚ)) * (1 / (M : ℚ)) := by
        rw [Finset.sum_mul]
    _ = ((Finset.range M).card : ℚ) * (1 / (M : ℚ)) := by
        rw [hcard, Nat.cast_sum]
    _ = 1 := by
        rw [Finset.card_range]
        field_simp

end EngineMaster


section SinglePointClaims

/-- A concrete mapping table for witnesses: 4 mesh points, column 0 the
identity and column 1 the inversion `k ↦ (4 - k) mod 4`. -/
def tbl4 : ℕ → ℕ → ℤ := fun k s => if s = 0 then (k : ℤ) else (((4 - k % 4) % 4 : ℕ) : ℤ)

/-- C1: for every built `KPoints` object (mapping table of a finite operation
group), the orbit lists `stars` partition the BZ index set `{0, …, nkpts-1}`:
every BZ index `k` lies in exactly one `stars[i]`, namely `i = bz2ibz[k]`. -/
theorem make_kpts_ibz_stars_partition (M nop : ℕ) (tbl : ℕ → ℕ → ℤ)
    (h : GoodTable M nop tbl) (k : ℕ) (hk : k < M) :
    bz2ibz M nop tbl k < nkpts_ibz M nop tbl ∧
    k ∈ stars M nop tbl (bz2ibz M nop tbl k) ∧
    ∀ i, k ∈ stars M nop tbl i → i = bz2ibz M nop tbl k := by
  refine ⟨bz2ibz_lt h hk, ?_, ?_⟩
  · exact List.mem_filter.mpr ⟨List.mem_range.mpr hk, by simp⟩
  · intro i hi
    simp only [stars, List.mem_filter, List.mem_range, decide_eq_true_eq] at hi
    exact hi.2.symm

theorem make_kpts_ibz_stars_partition_witness :
    GoodTable 4 2 tbl4 ∧ (2 : ℕ) < 4 ∧
    (bz2ibz 4 2 tbl4 2 < nkpts_ibz 4 2 tbl4 ∧
     2 ∈ stars 4 2 tbl4 (bz2ibz 4 2 tbl4 2) ∧
     ∀ i, 2 ∈ stars 4 2 tbl4 i → i = bz2ibz 4 2 tbl4 2) :=
  ⟨by decide, by decide, make_kpts_ibz_stars_partition 4 2 tbl4 (by decide) 2 (by decide)⟩

/-- C2: the IBZ weights sum to 1 and `weights_ibz[i] * nkpts` equals the
size of the orbit `stars[i]`. -/
theorem make_kpts_ibz_weights_normalized (M nop : ℕ) (tbl : ℕ → ℕ → ℤ)
    (hM : 0 < M) (h : GoodTable M nop tbl) :
    (∑ i ∈ Finset.range (nkpts_ibz M nop tbl), weights_ibz M nop tbl i) = 1 ∧
    ∀ i < nkpts_ibz M nop tbl,
      weights_ibz M nop tbl i * (M : ℚ) = ((stars M nop tbl i).length : ℚ) := by
  refine ⟨weights_ibz_sum h hM, ?_⟩
  intro i _
  have hMQ : (M : ℚ) ≠ 0 := Nat.cast_ne_zero.mpr (by omega)
  rw [weights_ibz, stars, ← List.countP_eq_length_filter]
  field_simp

theorem make_kpts_ibz_weights_normalized_witness :
    (0 : ℕ) < 4 ∧ GoodTable 4 2 tbl4 ∧
    ((∑ i ∈ Finset.range (nkpts_ibz 4 2 tbl4), weights_ibz 4 2 tbl4 i) = 1 ∧
     ∀ i < nkpts_ibz 4 2 tbl4,
       weights_ibz 4 2 tbl4 i * (4 : ℚ) = ((stars 4 2 tbl4 i).length : ℚ)) :=
  ⟨by decide, by decide, by
    have := make_kpts_ibz_weights_normalized 4 2 tbl4 (by decide) (by decide)
    exact_mod_cast this⟩

/-- C3: after `make_kpts_ibz`, every defined image `k2opk[k, s] ≠ -1` stays in
the orbit of `k`: `bz2ibz[k2opk[k, s]] == bz2ibz[k]`. -/
theorem make_kpts_ibz_orbit_closure (M nop : ℕ) (tbl : ℕ → ℕ → ℤ)
    (h : GoodTable M nop tbl) (k s : ℕ) (hk : k < M) (hs : s < nop)
    (hne : tbl k s ≠ -1) :
    bz2ibz M nop tbl ((tbl k s).toNat) = bz2ibz M nop tbl k := by
  rcases h.1 k hk s hs with hcase | ⟨h0, hlt⟩
  · exact absurd hcase hne
  · have hj : (tbl k s).toNat < M := by omega
    have hrel : opRel M nop tbl k ((tbl k s).toNat) := ⟨hk, hj, s, hs, by omega⟩
    exact (bz2ibz_congr h hk hj hrel).symm

theorem make_kpts_ibz_orbit_closure_witness :
    GoodTable 4 2 tbl4 ∧ (1 : ℕ) < 4 ∧ (1 : ℕ) < 2 ∧ tbl4 1 1 ≠ -1 ∧
    bz2ibz 4 2 tbl4 ((tbl4 1 1).toNat) = bz2ibz 4 2 tbl4 1 :=
  ⟨by decide, by decide, by decide, by decide,
   make_kpts_ibz_orbit_closure 4 2 tbl4 (by decide) 1 1 (by decide) (by decide) (by decide)⟩

end SinglePointClaims


section PairArith

variable {N : ℕ}

theorem pair_div {a b : ℕ} (hb : b < N) : (a * N + b) / N = a := by
  have hN : 0 < N := by omega
  rw [show a * N + b = b + N * a by ring, Nat.add_mul_div_left b a hN,
    Nat.div_eq_of_lt hb]
  omega

theorem pair_mod {a b : ℕ} (hb : b < N) : (a * N + b) % N = b := by
  rw [mul_comm a N, Nat.mul_add_mod, Nat.mod_eq_of_lt hb]

theorem pair_lt {a b : ℕ} (ha : a < N) (hb : b < N) : a * N + b < N * N := by
  have h1 : a * N + b < (a + 1) * N := by
    have : (a + 1) * N = a * N + N := by ring
    omega
  have h2 : (a + 1) * N ≤ N * N := Nat.mul_le_mul_right N (by omega)
  omega

theorem pos_of_lt_sq {p : ℕ} (hp : p < N * N) : 0 < N := by
  rcases Nat.eq_zero_or_pos N with h0 | h0
  · subst h0; omega
  · exact h0

theorem div_lt_of_lt_sq {p : ℕ} (hp : p < N * N) : p / N < N :=
  (Nat.div_lt_iff_lt_mul (pos_of_lt_sq hp)).mpr hp

theorem mod_lt_of_lt_sq {p : ℕ} (hp : p < N * N) : p % N < N :=
  Nat.mod_lt p (pos_of_lt_sq hp)

theorem div_mod_recompose {p : ℕ} (hp : p < N * N) : (p / N) * N + p % N = p := by
  rw [mul_comm]
  exact Nat.div_add_mod p N

end PairArith

section PairLemmas

variable {N nop : ℕ} {tbl : ℕ → ℕ → ℤ}

theorem pairTbl_eq_iff
    (hbnd : ∀ k < N, ∀ s < nop, tbl k s = -1 ∨ (0 ≤ tbl k s ∧ tbl k s < (N : ℤ)))
    {p q s : ℕ} (hp : p < N * N) (hs : s < nop) (hq : q < N * N) :
    pairTbl N tbl p s = (q : ℤ)
      ↔ tbl (p / N) s = ((q / N : ℕ) : ℤ) ∧ tbl (p % N) s = ((q % N : ℕ) : ℤ) := by
  have hp1 : p / N < N := div_lt_of_lt_sq hp
  have hp2 : p % N < N := mod_lt_of_lt_sq hp
  have hq1 : q / N < N := div_lt_of_lt_sq hq
  have hq2 : q % N < N := mod_lt_of_lt_sq hq
  constructor
  · intro hpq
    by_cases hc : tbl (p / N) s = -1 ∨ tbl (p % N) s = -1
    · rw [pairTbl, if_pos hc] at hpq
      omega
    · rw [pairTbl, if_neg hc] at hpq
      push_neg at hc
      rcases hbnd (p / N) hp1 s hs with hAneg | ⟨hA0, hAlt⟩
      · exact absurd hAneg hc.1
      rcases hbnd (p % N) hp2 s hs with hBneg | ⟨hB0, hBlt⟩
      · exact absurd hBneg hc.2
      set A := tbl (p / N) s
      set B := tbl (p % N) s
      have hAn : ((A.toNat : ℕ) : ℤ) = A := Int.toNat_of_nonneg hA0
      have hBn : ((B.toNat : ℕ) : ℤ) = B := Int.toNat_of_nonneg hB0
      have hnat : A.toNat * N + B.toNat = q := by
        have hcast : ((A.toNat * N + B.toNat : ℕ) : ℤ) = (q : ℤ) := by
          push_cast [hAn, hBn]
          linarith [hpq]
        exact_mod_cast hcast
      have hdiv : q / N = A.toNat := by
        rw [← hnat]
        exact pair_div (by omega)
      have hmod : q % N = B.toNat := by
        rw [← hnat]
        exact pair_mod (by omega)
      constructor
      · rw [hdiv]; omega
      · rw [hmod]; omega
  · rintro ⟨h1, h2⟩
    have hc : ¬(tbl (p / N) s = -1 ∨ tbl (p % N) s = -1) := by
      rw [h1, h2]
      rintro (hx | hx)
      · linarith [Int.natCast_nonneg (q / N), hx.le]
      · linarith [Int.natCast_nonneg (q % N), hx.le]
    rw [pairTbl, if_neg hc, h1, h2]
    have hdm : (q / N) * N + q % N = q := div_mod_recompose hq
    exact_mod_cast hdm

theorem pairTbl_good (h : GoodTable N nop tbl) :
    GoodTable (N * N) nop (pairTbl N tbl) := by
  obtain ⟨hbnd, ⟨s0, hs0, hid⟩, hinv, hcomp⟩ := h
  refine ⟨?_, ⟨s0, hs0, ?_⟩, ?_, ?_⟩
  · intro p hp s hs
    have hp1 : p / N < N := div_lt_of_lt_sq hp
    have hp2 : p % N < N := mod_lt_of_lt_sq hp
    by_cases hc : tbl (p / N) s = -1 ∨ tbl (p % N) s = -1
    · left
      rw [pairTbl, if_pos hc]
    · right
      push_neg at hc
      rcases hbnd (p / N) hp1 s hs with hAneg | ⟨hA0, hAlt⟩
      · exact absurd hAneg hc.1
      rcases hbnd (p % N) hp2 s hs with hBneg | ⟨hB0, hBlt⟩
      · exact absurd hBneg hc.2
      rw [pairTbl, if_neg (by tauto)]
      have hNpos : (0 : ℤ) ≤ (N : ℤ) := by positivity
      constructor
      · linarith [mul_nonneg hA0 hNpos, hB0]
      · have hstep : (tbl (p / N) s + 1) * (N : ℤ) ≤ (N : ℤ) * (N : ℤ) :=
          mul_le_mul_of_nonneg_right (by omega) hNpos
        have hring : (tbl (p / N) s + 1) * (N : ℤ) = tbl (p / N) s * N + N := by ring
        push_cast
        linarith [hstep, hring, hBlt]
  · intro p hp
    exact (pairTbl_eq_iff hbnd hp hs0 hp).mpr
      ⟨hid (p / N) (div_lt_of_lt_sq hp), hid (p % N) (mod_lt_of_lt_sq hp)⟩
  · intro s hs
    obtain ⟨s', hs', hi⟩ := hinv s hs
    refine ⟨s', hs', ?_⟩
    intro p hp q hq hpq
    obtain ⟨h1, h2⟩ := (pairTbl_eq_iff hbnd hp hs hq).mp hpq
    exact (pairTbl_eq_iff hbnd hq hs' hp).mpr
      ⟨hi (p / N) (div_lt_of_lt_sq hp) (q / N) (div_lt_of_lt_sq hq) h1,
       hi (p % N) (mod_lt_of_lt_sq hp) (q % N) (mod_lt_of_lt_sq hq) h2⟩
  · intro s hs s' hs'
    obtain ⟨s2, hs2, hco⟩ := hcomp s hs s' hs'
    refine ⟨s2, hs2, ?_⟩
    intro p hp q hq r hr hpq hqr
    obtain ⟨h1, h2⟩ := (pairTbl_eq_iff hbnd hp hs hq).mp hpq
    obtain ⟨h3, h4⟩ := (pairTbl_eq_iff hbnd hq hs' hr).mp hqr
    exact (pairTbl_eq_iff hbnd hp hs2 hr).mpr
      ⟨hco (p / N) (div_lt_of_lt_sq hp) (q / N) (div_lt_of_lt_sq hq)
         (r / N) (div_lt_of_lt_sq hr) h1 h3,
       hco (p % N) (mod_lt_of_lt_sq hp) (q % N) (mod_lt_of_lt_sq hq)
         (r % N) (mod_lt_of_lt_sq hr) h2 h4⟩

theorem swapP_lt {p : ℕ} (hp : p < N * N) : swapP N p < N * N :=
  pair_lt (mod_lt_of_lt_sq hp) (div_lt_of_lt_sq hp)

theorem swapP_div {p : ℕ} (hp : p < N * N) : swapP N p / N = p % N :=
  pair_div (div_lt_of_lt_sq hp)

theorem swapP_mod {p : ℕ} (hp : p < N * N) : swapP N p % N = p / N :=
  pair_mod (div_lt_of_lt_sq hp)

theorem swapP_swapP {p : ℕ} (hp : p < N * N) : swapP N (swapP N p) = p := by
  rw [swapP, swapP_div hp, swapP_mod hp]
  exact div_mod_recompose hp

theorem pairRel_swap (h : GoodTable N nop tbl) {p q : ℕ}
    (hrel : opRel (N * N) nop (pairTbl N tbl) p q) :
    opRel (N * N) nop (pairTbl N tbl) (swapP N p) (swapP N q) := by
  obtain ⟨hp, hq, s, hs, hpq⟩ := hrel
  obtain ⟨h1, h2⟩ := (pairTbl_eq_iff h.1 hp hs hq).mp hpq
  refine ⟨swapP_lt hp, swapP_lt hq, s, hs, ?_⟩
  apply (pairTbl_eq_iff h.1 (swapP_lt hp) hs (swapP_lt hq)).mpr
  rw [swapP_div hp, swapP_mod hp, swapP_div hq, swapP_mod hq]
  exact ⟨h2, h1⟩

theorem orbit_swap_card (h : GoodTable N nop tbl) {p : ℕ} (hp : p < N * N) :
    ((Finset.range (N * N)).filter (opRel (N * N) nop (pairTbl N tbl) (swapP N p))).card
      = ((Finset.range (N * N)).filter (opRel (N * N) nop (pairTbl N tbl) p)).card := by
  refine Finset.card_bij' (fun q _ => swapP N q) (fun q _ => swapP N q) ?_ ?_ ?_ ?_
  · intro q hq
    obtain ⟨hqr, hrel⟩ := Finset.mem_filter.mp hq
    have hrel2 := pairRel_swap h hrel
    rw [swapP_swapP hp] at hrel2
    exact Finset.mem_filter.mpr ⟨Finset.mem_range.mpr (swapP_lt hrel.2.1), hrel2⟩
  · intro q hq
    obtain ⟨hqr, hrel⟩ := Finset.mem_filter.mp hq
    exact Finset.mem_filter.mpr
      ⟨Finset.mem_range.mpr (swapP_lt hrel.2.1), pairRel_swap h hrel⟩
  · intro q hq
    exact swapP_swapP (Finset.mem_range.mp (Finset.mem_filter.mp hq).1)
  · intro q hq
    exact swapP_swapP (Finset.mem_range.mp (Finset.mem_filter.mp hq).1)

end PairLemmas


section ListHelpers

theorem mem_pos_getD {l : List ℕ} {r : ℕ} (hr : r ∈ l) :
    ∃ t, t < l.length ∧ l.getD t 0 = r := by
  obtain ⟨t, ht, hgt⟩ := List.mem_iff_getElem.mp hr
  refine ⟨t, ht, ?_⟩
  rw [List.getD_eq_getElem _ _ ht]
  exact hgt

theorem getD_inj_of_nodup {l : List ℕ} (hnd : l.Nodup) {t1 t2 : ℕ}
    (h1 : t1 < l.length) (h2 : t2 < l.length) (he : l.getD t1 0 = l.getD t2 0) :
    t1 = t2 := by
  rw [List.getD_eq_getElem l 0 h1, List.getD_eq_getElem l 0 h2] at he
  exact (List.Nodup.getElem_inj_iff hnd).mp he

theorem getD_mem_of_lt {l : List ℕ} {t : ℕ} (ht : t < l.length) : l.getD t 0 ∈ l := by
  rw [List.getD_eq_getElem l 0 ht]
  exact List.getElem_mem ht

theorem sum_map_filterMap {β : Type} (g : β → Option ℕ) (f : ℕ → ℚ) (l : List β) :
    ((l.filterMap g).map f).sum = (l.map (fun b => ((g b).map f).getD 0)).sum := by
  induction l with
  | nil => rfl
  | cons b l ih =>
    cases hgb : g b with
    | none =>
      rw [List.filterMap_cons_none hgb, ih, List.map_cons, List.sum_cons, hgb]
      simp
    | some t =>
      rw [List.filterMap_cons_some hgb, List.map_cons, List.sum_cons, ih,
        List.map_cons, List.sum_cons, hgb]
      simp

theorem sum_map_flatMap {β : Type} (g : ℕ → List β) (f : β → ℚ) (l : List ℕ) :
    ((l.flatMap g).map f).sum = (l.map (fun a => ((g a).map f).sum)).sum := by
  induction l with
  | nil => rfl
  | cons a l ih =>
    rw [List.flatMap_cons, List.map_append, List.sum_append, ih,
      List.map_cons, List.sum_cons]

theorem list_sum_range_eq (n : ℕ) (F : ℕ → ℚ) :
    ((List.range n).map F).sum = ∑ a ∈ Finset.range n, F a := by
  induction n with
  | zero => rfl
  | succ m ih =>
    rw [List.range_succ, List.map_append, List.sum_append, Finset.sum_range_succ, ih]
    simp

end ListHelpers

section FiberLemma

variable {M nop : ℕ} {tbl : ℕ → ℕ → ℤ}

theorem weights_ibz_eq_orbit_card (h : GoodTable M nop tbl) {t : ℕ}
    (ht : t < nkpts_ibz M nop tbl) :
    weights_ibz M nop tbl t
      = (((Finset.range M).filter (opRel M nop tbl ((ibz2bz M nop tbl).getD t 0))).card : ℚ)
        * (1 / (M : ℚ)) := by
  rw [weights_ibz_eq_card]
  obtain ⟨hrM, hrmax⟩ := (mem_ibz2bz h).mp (getD_ibz2bz_mem h ht)
  have hsets : (Finset.range M).filter (fun k => bz2ibz M nop tbl k = t)
      = (Finset.range M).filter (opRel M nop tbl ((ibz2bz M nop tbl).getD t 0)) := by
    apply Finset.filter_congr
    intro k hk
    have hkM := Finset.mem_range.mp hk
    rw [bz2ibz_eq_pos h hkM ht]
    constructor
    · intro hmax
      have hx := opRel_maxOrbit h hkM
      rw [hmax] at hx
      exact opRel_symm h hx
    · intro hrel
      rw [maxOrbit_eq_of_rel h (opRel_symm h hrel), hrmax]
  rw [hsets]

end FiberLemma


section S2Fiber

variable {N nop : ℕ} {tbl : ℕ → ℕ → ℤ}

theorem s2EntryWeight_eq (t : ℕ) :
    s2EntryWeight N nop tbl t =
      if ((ibz2bz_kk N nop tbl).getD t 0 % N) * N + (ibz2bz_kk N nop tbl).getD t 0 / N
          ∈ ibz2bz_kk N nop tbl
      then (if (ibz2bz_kk N nop tbl).getD t 0 / N ≠ (ibz2bz_kk N nop tbl).getD t 0 % N
            then ibz_kk_weight N nop tbl t * 2 else ibz_kk_weight N nop tbl t)
      else (if (ibz2bz_kk N nop tbl).getD t 0 / N ≠ (ibz2bz_kk N nop tbl).getD t 0 % N
            then ibz_kk_weight N nop tbl t * 2 else ibz_kk_weight N nop tbl t) / 2 := rfl

theorem kk_entry_lt (h : GoodTable N nop tbl) {t : ℕ}
    (ht : t < (ibz2bz_kk N nop tbl).length) :
    (ibz2bz_kk N nop tbl).getD t 0 < N * N :=
  ((mem_ibz2bz (pairTbl_good h)).mp (getD_mem_of_lt ht)).1

theorem sortedPairAt_decomp (h : GoodTable N nop tbl) {a b t : ℕ}
    (ht : t < (ibz2bz_kk N nop tbl).length)
    (hk : sortedPairAt N (ibz2bz_kk N nop tbl) t = (a, b)) :
    ((ibz2bz_kk N nop tbl).getD t 0 / N = a ∧ (ibz2bz_kk N nop tbl).getD t 0 % N = b) ∨
    ((ibz2bz_kk N nop tbl).getD t 0 / N = b ∧ (ibz2bz_kk N nop tbl).getD t 0 % N = a) := by
  rw [sortedPairAt, Prod.mk.injEq] at hk
  obtain ⟨hmin, hmax⟩ := hk
  rcases le_total ((ibz2bz_kk N nop tbl).getD t 0 / N) ((ibz2bz_kk N nop tbl).getD t 0 % N)
    with hle | hle
  · left
    rw [min_eq_left hle] at hmin
    rw [max_eq_right hle] at hmax
    exact ⟨hmin, hmax⟩
  · right
    rw [min_eq_right hle] at hmin
    rw [max_eq_left hle] at hmax
    exact ⟨hmax, hmin⟩

theorem kk_weight_swap (h : GoodTable N nop tbl) {t0 t1 : ℕ}
    (ht0 : t0 < (ibz2bz_kk N nop tbl).length)
    (ht1 : t1 < (ibz2bz_kk N nop tbl).length)
    (hsw : (ibz2bz_kk N nop tbl).getD t1 0 = swapP N ((ibz2bz_kk N nop tbl).getD t0 0)) :
    ibz_kk_weight N nop tbl t1 = ibz_kk_weight N nop tbl t0 := by
  have h2 : GoodTable (N * N) nop (pairTbl N tbl) := pairTbl_good h
  have hunf : ibz2bz (N * N) nop (pairTbl N tbl) = ibz2bz_kk N nop tbl := rfl
  have hwunf : weights_ibz (N * N) nop (pairTbl N tbl) = ibz_kk_weight N nop tbl := rfl
  have h1' := weights_ibz_eq_orbit_card h2
    (show t1 < nkpts_ibz (N * N) nop (pairTbl N tbl) from ht1)
  have h0' := weights_ibz_eq_orbit_card h2
    (show t0 < nkpts_ibz (N * N) nop (pairTbl N tbl) from ht0)
  rw [hunf, hwunf, hsw] at h1'
  rw [hunf, hwunf] at h0'
  rw [h1', h0', orbit_swap_card h (kk_entry_lt h ht0)]

theorem s2_entry_offdiag_aux (h : GoodTable N nop tbl) {a b u v t0 : ℕ}
    (hu : u < N) (hv : v < N) (huv : u ≠ v)
    (ht0 : t0 < (ibz2bz_kk N nop tbl).length)
    (hx : (ibz2bz_kk N nop tbl).getD t0 0 / N = u)
    (hy : (ibz2bz_kk N nop tbl).getD t0 0 % N = v)
    (hmin : u ⊓ v = a) (hmax : u ⊔ v = b) :
    s2EntryWeight N nop tbl t0
      = ∑ t ∈ (Finset.range (ibz2bz_kk N nop tbl).length).filter
          (fun t => sortedPairAt N (ibz2bz_kk N nop tbl) t = (a, b)),
          ibz_kk_weight N nop tbl t := by
  have h2 : GoodTable (N * N) nop (pairTbl N tbl) := pairTbl_good h
  have hkknd : (ibz2bz_kk N nop tbl).Nodup := ibz2bz_nodup h2
  have hr0lt := kk_entry_lt h ht0
  have hval0 : (ibz2bz_kk N nop tbl).getD t0 0 = u * N + v := by
    rw [← div_mod_recompose hr0lt, hx, hy]
  have hud : (u * N + v) / N = u := pair_div hv
  have hum : (u * N + v) % N = v := pair_mod hv
  have hvd : (v * N + u) / N = v := pair_div hu
  have hvm : (v * N + u) % N = u := pair_mod hu
  have hne_uv : u * N + v ≠ v * N + u := by
    intro he
    have hcon : u = v := by rw [← hud, he, hvd]
    exact huv hcon
  have hkey0 : sortedPairAt N (ibz2bz_kk N nop tbl) t0 = (a, b) := by
    rw [sortedPairAt, hval0, hud, hum, hmin, hmax]
  have hkeyO : ∀ t1, t1 < (ibz2bz_kk N nop tbl).length →
      (ibz2bz_kk N nop tbl).getD t1 0 = v * N + u →
      sortedPairAt N (ibz2bz_kk N nop tbl) t1 = (a, b) := by
    intro t1 ht1 hv1
    rw [sortedPairAt, hv1, hvd, hvm, min_comm, max_comm, hmin, hmax]
  have hfibchar : ∀ t, t < (ibz2bz_kk N nop tbl).length →
      sortedPairAt N (ibz2bz_kk N nop tbl) t = (a, b) →
      (ibz2bz_kk N nop tbl).getD t 0 = u * N + v ∨
      (ibz2bz_kk N nop tbl).getD t 0 = v * N + u := by
    intro t ht hkt
    have hrec := div_mod_recompose (kk_entry_lt h ht)
    have hcase : (u = a ∧ v = b) ∨ (u = b ∧ v = a) := by omega
    rcases sortedPairAt_decomp h ht hkt with ⟨hx1, hy1⟩ | ⟨hx1, hy1⟩
    · rcases hcase with ⟨hua, hvb⟩ | ⟨hub, hva⟩
      · left
        rw [← hrec, hx1, hy1, hua, hvb]
      · right
        rw [← hrec, hx1, hy1, hub, hva]
    · rcases hcase with ⟨hua, hvb⟩ | ⟨hub, hva⟩
      · right
        rw [← hrec, hx1, hy1, hua, hvb]
      · left
        rw [← hrec, hx1, hy1, hub, hva]
  have hswv : ((ibz2bz_kk N nop tbl).getD t0 0 % N) * N
      + (ibz2bz_kk N nop tbl).getD t0 0 / N = v * N + u := by
    rw [hx, hy]
  have hOne : (ibz2bz_kk N nop tbl).getD t0 0 ≠ v * N + u := by
    rw [hval0]
    exact hne_uv
  have hinner : (ibz2bz_kk N nop tbl).getD t0 0 / N
      ≠ (ibz2bz_kk N nop tbl).getD t0 0 % N := by
    rw [hx, hy]
    exact huv
  by_cases hOmem : v * N + u ∈ ibz2bz_kk N nop tbl
  · obtain ⟨t1, ht1, hgt1⟩ := mem_pos_getD hOmem
    have hOther : (ibz2bz_kk N nop tbl).getD t1 0
        = swapP N ((ibz2bz_kk N nop tbl).getD t0 0) := by
      rw [hgt1]
      show _ = ((ibz2bz_kk N nop tbl).getD t0 0 % N) * N
        + (ibz2bz_kk N nop tbl).getD t0 0 / N
      rw [hswv]
    have ht01 : t0 ≠ t1 := by
      intro he
      rw [← he] at hgt1
      exact hOne hgt1
    have hfib : (Finset.range (ibz2bz_kk N nop tbl).length).filter
        (fun t => sortedPairAt N (ibz2bz_kk N nop tbl) t = (a, b)) = {t0, t1} := by
      ext t
      simp only [Finset.mem_filter, Finset.mem_range, Finset.mem_insert,
        Finset.mem_singleton]
      constructor
      · rintro ⟨ht, hkt⟩
        rcases hfibchar t ht hkt with hval | hval
        · left
          exact getD_inj_of_nodup hkknd ht ht0 (by rw [hval, hval0])
        · right
          exact getD_inj_of_nodup hkknd ht ht1 (by rw [hval, hgt1])
      · rintro (rfl | rfl)
        · exact ⟨ht0, hkey0⟩
        · exact ⟨ht1, hkeyO t ht1 hgt1⟩
    rw [hfib, Finset.sum_pair ht01, kk_weight_swap h ht0 ht1 hOther]
    rw [s2EntryWeight_eq, hswv, if_pos hOmem, if_pos hinner]
    ring
  · have hfib : (Finset.range (ibz2bz_kk N nop tbl).length).filter
        (fun t => sortedPairAt N (ibz2bz_kk N nop tbl) t = (a, b)) = {t0} := by
      apply Finset.eq_singleton_iff_unique_mem.mpr
      refine ⟨Finset.mem_filter.mpr ⟨Finset.mem_range.mpr ht0, hkey0⟩, ?_⟩
      intro t htf
      obtain ⟨htr, hkt⟩ := Finset.mem_filter.mp htf
      have ht := Finset.mem_range.mp htr
      rcases hfibchar t ht hkt with hval | hval
      · exact getD_inj_of_nodup hkknd ht ht0 (by rw [hval, hval0])
      · exact absurd (hval ▸ getD_mem_of_lt ht) hOmem
    rw [hfib, Finset.sum_singleton]
    rw [s2EntryWeight_eq, hswv, if_neg hOmem, if_pos hinner]
    ring

theorem s2_entry_offdiag (h : GoodTable N nop tbl) {a b t0 : ℕ}
    (ha : a < N) (hb : b < N) (hab : a < b)
    (ht0 : t0 < (ibz2bz_kk N nop tbl).length)
    (hkey0 : sortedPairAt N (ibz2bz_kk N nop tbl) t0 = (a, b)) :
    s2EntryWeight N nop tbl t0
      = ∑ t ∈ (Finset.range (ibz2bz_kk N nop tbl).length).filter
          (fun t => sortedPairAt N (ibz2bz_kk N nop tbl) t = (a, b)),
          ibz_kk_weight N nop tbl t := by
  rcases sortedPairAt_decomp h ht0 hkey0 with ⟨hx, hy⟩ | ⟨hx, hy⟩
  · exact s2_entry_offdiag_aux h ha hb (by omega) ht0 hx hy
      (min_eq_left hab.le) (max_eq_right hab.le)
  · exact s2_entry_offdiag_aux h hb ha (by omega) ht0 hx hy
      (min_eq_right hab.le) (max_eq_left hab.le)

theorem s2_entry_diag (h : GoodTable N nop tbl) {a t0 : ℕ}
    (ht0 : t0 < (ibz2bz_kk N nop tbl).length)
    (hkey0 : sortedPairAt N (ibz2bz_kk N nop tbl) t0 = (a, a)) :
    s2EntryWeight N nop tbl t0
      = ∑ t ∈ (Finset.range (ibz2bz_kk N nop tbl).length).filter
          (fun t => sortedPairAt N (ibz2bz_kk N nop tbl) t = (a, a)),
          ibz_kk_weight N nop tbl t := by
  have h2 : GoodTable (N * N) nop (pairTbl N tbl) := pairTbl_good h
  have hkknd : (ibz2bz_kk N nop tbl).Nodup := ibz2bz_nodup h2
  have hr0lt := kk_entry_lt h ht0
  have hcomp : (ibz2bz_kk N nop tbl).getD t0 0 / N = a ∧
      (ibz2bz_kk N nop tbl).getD t0 0 % N = a := by
    rcases sortedPairAt_decomp h ht0 hkey0 with hc | hc <;> exact hc
  have hval0 : (ibz2bz_kk N nop tbl).getD t0 0 = a * N + a := by
    rw [← div_mod_recompose hr0lt, hcomp.1, hcomp.2]
  have hswv : ((ibz2bz_kk N nop tbl).getD t0 0 % N) * N
      + (ibz2bz_kk N nop tbl).getD t0 0 / N = (ibz2bz_kk N nop tbl).getD t0 0 := by
    rw [hcomp.1, hcomp.2, ← hval0]
  have hfib : (Finset.range (ibz2bz_kk N nop tbl).length).filter
      (fun t => sortedPairAt N (ibz2bz_kk N nop tbl) t = (a, a)) = {t0} := by
    apply Finset.eq_singleton_iff_unique_mem.mpr
    refine ⟨Finset.mem_filter.mpr ⟨Finset.mem_range.mpr ht0, hkey0⟩, ?_⟩
    intro t htf
    obtain ⟨htr, hkt⟩ := Finset.mem_filter.mp htf
    have ht := Finset.mem_range.mp htr
    have hvalt : (ibz2bz_kk N nop tbl).getD t 0 = a * N + a := by
      rcases sortedPairAt_decomp h ht hkt with ⟨h1, h2'⟩ | ⟨h1, h2'⟩ <;>
        rw [← div_mod_recompose (kk_entry_lt h ht), h1, h2']
    exact getD_inj_of_nodup hkknd ht ht0 (by rw [hvalt, hval0])
  rw [hfib, Finset.sum_singleton, s2EntryWeight_eq, hswv, if_pos (getD_mem_of_lt ht0),
    if_neg (show ¬((ibz2bz_kk N nop tbl).getD t0 0 / N
      ≠ (ibz2bz_kk N nop tbl).getD t0 0 % N) from
      fun hcon => hcon (hcomp.1.trans hcomp.2.symm))]

theorem s2_entry_fiber (h : GoodTable N nop tbl) {a b : ℕ} (ha : a < N) (hb : b < N) :
    ((if a ≤ b then
        (List.range (ibz2bz_kk N nop tbl).length).find?
          (fun t => decide (sortedPairAt N (ibz2bz_kk N nop tbl) t = (a, b)))
      else none).map (s2EntryWeight N nop tbl)).getD 0
    = ∑ t ∈ (Finset.range (ibz2bz_kk N nop tbl).length).filter
        (fun t => sortedPairAt N (ibz2bz_kk N nop tbl) t = (a, b)),
        ibz_kk_weight N nop tbl t := by
  by_cases hab : a ≤ b
  swap
  · rw [if_neg hab]
    have hempty : (Finset.range (ibz2bz_kk N nop tbl).length).filter
        (fun t => sortedPairAt N (ibz2bz_kk N nop tbl) t = (a, b)) = ∅ := by
      rw [Finset.filter_eq_empty_iff]
      intro t htr hk
      rw [sortedPairAt, Prod.mk.injEq] at hk
      obtain ⟨h1, h2⟩ := hk
      have hmm := @min_le_max ℕ _ ((ibz2bz_kk N nop tbl).getD t 0 / N)
        ((ibz2bz_kk N nop tbl).getD t 0 % N)
      rw [h1, h2] at hmm
      exact hab hmm
    rw [hempty, Finset.sum_empty]
    rfl
  · rw [if_pos hab]
    cases hfind : (List.range (ibz2bz_kk N nop tbl).length).find?
        (fun t => decide (sortedPairAt N (ibz2bz_kk N nop tbl) t = (a, b))) with
    | none =>
      have hempty : (Finset.range (ibz2bz_kk N nop tbl).length).filter
          (fun t => sortedPairAt N (ibz2bz_kk N nop tbl) t = (a, b)) = ∅ := by
        rw [Finset.filter_eq_empty_iff]
        intro t htr hk
        exact (List.find?_eq_none.mp hfind t
          (List.mem_range.mpr (Finset.mem_range.mp htr))) (by simpa using hk)
      rw [hempty, Finset.sum_empty]
      rfl
    | some t0 =>
      have ht0 : t0 < (ibz2bz_kk N nop tbl).length :=
        List.mem_range.mp (List.mem_of_find?_eq_some hfind)
      have hp := @List.find?_some ℕ
        (fun t => decide (sortedPairAt N (ibz2bz_kk N nop tbl) t = (a, b))) t0
        (List.range (ibz2bz_kk N nop tbl).length) hfind
      have hkey0 : sortedPairAt N (ibz2bz_kk N nop tbl) t0 = (a, b) :=
        of_decide_eq_true hp
      show s2EntryWeight N nop tbl t0 = _
      rcases Nat.lt_or_ge a b with hlt | hge
      · exact s2_entry_offdiag h ha hb hlt ht0 hkey0
      · have hba : a = b := le_antisymm hab hge
        subst hba
        exact s2_entry_diag h ht0 hkey0

end S2Fiber


section PairClaims

/-- A concrete mapping table for pair-space witnesses: 2 mesh points and the
identity operation only. -/
def tblId2 : ℕ → ℕ → ℤ := fun k _ => (k : ℤ)

/-- C4: with `permutation_symmetry=True`, the permutation-reduced pair weights
`ibz_kk_s2_weight` sum to 1, matching the sum of the unreduced pair-orbit
weights `ibz_kk_weight`, which is also 1. -/
theorem make_kpairs_ibz_weight_sum_one (N nop : ℕ) (tbl : ℕ → ℕ → ℤ)
    (hN : 0 < N) (h : GoodTable N nop tbl) :
    (ibz_kk_s2_weight N nop tbl).sum = 1 ∧
    ((List.range (ibz2bz_kk N nop tbl).length).map (ibz_kk_weight N nop tbl)).sum = 1 := by
  have h2 : GoodTable (N * N) nop (pairTbl N tbl) := pairTbl_good h
  have hM : 0 < N * N := Nat.mul_pos hN hN
  have hsum1 : ((List.range (ibz2bz_kk N nop tbl).length).map
      (ibz_kk_weight N nop tbl)).sum = 1 := by
    rw [list_sum_range_eq]
    exact weights_ibz_sum h2 hM
  refine ⟨?_, hsum1⟩
  rw [ibz_kk_s2_weight, idx_ij_s2, sum_map_flatMap, list_sum_range_eq]
  have hstep : ∀ a ∈ Finset.range N,
      (((List.range N).filterMap (fun b =>
        if a ≤ b then
          (List.range (ibz2bz_kk N nop tbl).length).find?
            (fun t => decide (sortedPairAt N (ibz2bz_kk N nop tbl) t = (a, b)))
        else none)).map (s2EntryWeight N nop tbl)).sum
      = ∑ b ∈ Finset.range N,
          ∑ t ∈ (Finset.range (ibz2bz_kk N nop tbl).length).filter
            (fun t => sortedPairAt N (ibz2bz_kk N nop tbl) t = (a, b)),
            ibz_kk_weight N nop tbl t := by
    intro a har
    rw [sum_map_filterMap, list_sum_range_eq]
    apply Finset.sum_congr rfl
    intro b hbr
    exact s2_entry_fiber h (Finset.mem_range.mp har) (Finset.mem_range.mp hbr)
  rw [Finset.sum_congr rfl hstep]
  have hmaps : ∀ t ∈ Finset.range (ibz2bz_kk N nop tbl).length,
      sortedPairAt N (ibz2bz_kk N nop tbl) t ∈ Finset.range N ×ˢ Finset.range N := by
    intro t htr
    have ht := Finset.mem_range.mp htr
    have hlt := kk_entry_lt h ht
    rw [Finset.mem_product]
    constructor
    · exact Finset.mem_range.mpr
        (lt_of_le_of_lt (min_le_left _ _) (div_lt_of_lt_sq hlt))
    · exact Finset.mem_range.mpr
        (max_lt (div_lt_of_lt_sq hlt) (mod_lt_of_lt_sq hlt))
  have hfw := Finset.sum_fiberwise_of_maps_to hmaps (ibz_kk_weight N nop tbl)
  rw [Finset.sum_product] at hfw
  rw [hfw]
  exact weights_ibz_sum h2 hM

theorem make_kpairs_ibz_weight_sum_one_witness :
    (0 : ℕ) < 2 ∧ GoodTable 2 1 tblId2 ∧
    ((ibz_kk_s2_weight 2 1 tblId2).sum = 1 ∧
     ((List.range (ibz2bz_kk 2 1 tblId2).length).map (ibz_kk_weight 2 1 tblId2)).sum = 1) :=
  ⟨by decide, by decide, make_kpairs_ibz_weight_sum_one 2 1 tblId2 (by decide) (by decide)⟩

theorem getD_map_q (l : List ℕ) (f : ℕ → ℚ) {m : ℕ} (hm : m < l.length) :
    (l.map f).getD m 0 = f (l.getD m 0) := by
  rw [List.getD_eq_getElem (l.map f) 0 (by rw [List.length_map]; exact hm),
    List.getElem_map, List.getD_eq_getElem l 0 hm]

theorem idx_ij_s2_lt {N nop : ℕ} {tbl : ℕ → ℕ → ℤ} {m : ℕ}
    (hm : m < (idx_ij_s2 N nop tbl).length) :
    (idx_ij_s2 N nop tbl).getD m 0 < (ibz2bz_kk N nop tbl).length := by
  have hmem : (idx_ij_s2 N nop tbl).getD m 0 ∈ idx_ij_s2 N nop tbl := getD_mem_of_lt hm
  rw [idx_ij_s2] at hmem
  simp only [List.mem_flatMap, List.mem_filterMap] at hmem
  obtain ⟨a, _, b, _, hfb⟩ := hmem
  by_cases hab : a ≤ b
  · rw [if_pos hab] at hfb
    exact List.mem_range.mp (List.mem_of_find?_eq_some hfb)
  · rw [if_neg hab] at hfb
    cases hfb

/-- C5 (amended): a merged pair orbit entry of `ibz_kk_s2_weight` equals its
unreduced weight doubled when the representative pair has two distinct
components and its swapped flattened pair lies in the unreduced
representative list `ibz2bz_kk`; it equals the unreduced weight unchanged
when the two components are equal, or when they differ but the swapped pair
is absent from `ibz2bz_kk` (the code then doubles and halves). -/
theorem make_kpairs_ibz_s2_weight_rule (N nop : ℕ) (tbl : ℕ → ℕ → ℤ) (m : ℕ)
    (hm : m < (idx_ij_s2 N nop tbl).length) :
    (ibz_kk_s2_weight N nop tbl).getD m 0
      = if (ibz2bz_kk N nop tbl).getD ((idx_ij_s2 N nop tbl).getD m 0) 0 / N
           = (ibz2bz_kk N nop tbl).getD ((idx_ij_s2 N nop tbl).getD m 0) 0 % N
        then ibz_kk_weight N nop tbl ((idx_ij_s2 N nop tbl).getD m 0)
        else if ((ibz2bz_kk N nop tbl).getD ((idx_ij_s2 N nop tbl).getD m 0) 0 % N) * N
               + (ibz2bz_kk N nop tbl).getD ((idx_ij_s2 N nop tbl).getD m 0) 0 / N
               ∈ ibz2bz_kk N nop tbl
        then ibz_kk_weight N nop tbl ((idx_ij_s2 N nop tbl).getD m 0) * 2
        else ibz_kk_weight N nop tbl ((idx_ij_s2 N nop tbl).getD m 0) := by
  have hgd : (ibz_kk_s2_weight N nop tbl).getD m 0
      = s2EntryWeight N nop tbl ((idx_ij_s2 N nop tbl).getD m 0) := by
    rw [ibz_kk_s2_weight]
    exact getD_map_q _ _ hm
  have ht : (idx_ij_s2 N nop tbl).getD m 0 < (ibz2bz_kk N nop tbl).length :=
    idx_ij_s2_lt hm
  rw [hgd, s2EntryWeight_eq]
  by_cases hij : (ibz2bz_kk N nop tbl).getD ((idx_ij_s2 N nop tbl).getD m 0) 0 / N
      = (ibz2bz_kk N nop tbl).getD ((idx_ij_s2 N nop tbl).getD m 0) 0 % N
  · have hswr : ((ibz2bz_kk N nop tbl).getD ((idx_ij_s2 N nop tbl).getD m 0) 0 % N) * N
        + (ibz2bz_kk N nop tbl).getD ((idx_ij_s2 N nop tbl).getD m 0) 0 / N
        = (ibz2bz_kk N nop tbl).getD ((idx_ij_s2 N nop tbl).getD m 0) 0 := by
      have hda : ((ibz2bz_kk N nop tbl).getD ((idx_ij_s2 N nop tbl).getD m 0) 0 / N) * N
          + (ibz2bz_kk N nop tbl).getD ((idx_ij_s2 N nop tbl).getD m 0) 0 % N
          = (ibz2bz_kk N nop tbl).getD ((idx_ij_s2 N nop tbl).getD m 0) 0 := by
        rw [mul_comm]
        exact Nat.div_add_mod _ N
      rw [← hij] at hda ⊢
      exact hda
    rw [hswr, if_pos (getD_mem_of_lt ht), if_neg (fun hcon => hcon hij), if_pos hij]
  · rw [if_neg hij]
    by_cases hOm : ((ibz2bz_kk N nop tbl).getD ((idx_ij_s2 N nop tbl).getD m 0) 0 % N) * N
        + (ibz2bz_kk N nop tbl).getD ((idx_ij_s2 N nop tbl).getD m 0) 0 / N
        ∈ ibz2bz_kk N nop tbl
    · rw [if_pos hOm, if_pos hij, if_pos hOm]
    · rw [if_neg hOm, if_pos hij, if_neg hOm]
      ring

theorem make_kpairs_ibz_s2_weight_rule_witness :
    (0 : ℕ) < (idx_ij_s2 2 1 tblId2).length ∧
    ((ibz_kk_s2_weight 2 1 tblId2).getD 0 0
      = if (ibz2bz_kk 2 1 tblId2).getD ((idx_ij_s2 2 1 tblId2).getD 0 0) 0 / 2
           = (ibz2bz_kk 2 1 tblId2).getD ((idx_ij_s2 2 1 tblId2).getD 0 0) 0 % 2
        then ibz_kk_weight 2 1 tblId2 ((idx_ij_s2 2 1 tblId2).getD 0 0)
        else if ((ibz2bz_kk 2 1 tblId2).getD ((idx_ij_s2 2 1 tblId2).getD 0 0) 0 % 2) * 2
               + (ibz2bz_kk 2 1 tblId2).getD ((idx_ij_s2 2 1 tblId2).getD 0 0) 0 / 2
               ∈ ibz2bz_kk 2 1 tblId2
        then ibz_kk_weight 2 1 tblId2 ((idx_ij_s2 2 1 tblId2).getD 0 0) * 2
        else ibz_kk_weight 2 1 tblId2 ((idx_ij_s2 2 1 tblId2).getD 0 0)) :=
  ⟨by decide, make_kpairs_ibz_s2_weight_rule 2 1 tblId2 0 (by decide)⟩

/-- C5 counterexample: the claim as stated fails on the 2-point mesh with the
identity operation alone.  The first merged entry is the diagonal pair
`(0,0)`; its swapped partner is itself and is present in the merged list
`ibz2bz_kk_s2`, yet its weight stays `1/4`, the unreduced weight, rather
than being doubled to `2 * (1/4)`. -/
theorem make_kpairs_ibz_s2_weight_claim_false :
    (ibz2bz_kk_s2 2 1 tblId2).getD 0 0 = 0 ∧
    ((ibz2bz_kk_s2 2 1 tblId2).getD 0 0 % 2) * 2 + (ibz2bz_kk_s2 2 1 tblId2).getD 0 0 / 2
      ∈ ibz2bz_kk_s2 2 1 tblId2 ∧
    (idx_ij_s2 2 1 tblId2).getD 0 0 = 0 ∧
    ibz_kk_weight 2 1 tblId2 0 = 1 / 4 ∧
    (ibz_kk_s2_weight 2 1 tblId2).getD 0 0 = 1 / 4 ∧
    (1 / 4 : ℚ) ≠ 2 * (1 / 4) := by
  have hw : ibz_kk_weight 2 1 tblId2 0 = 1 / 4 := by
    rw [ibz_kk_weight, weights_ibz]
    have hc : (List.range (2 * 2)).countP
        (fun k => decide (bz2ibz (2 * 2) 1 (pairTbl 2 tblId2) k = 0)) = 1 := by decide
    rw [hc]
    norm_num
  refine ⟨by decide, by decide, by decide, hw, ?_, by norm_num⟩
  have hm0 : (0 : ℕ) < (idx_ij_s2 2 1 tblId2).length := by decide
  have hgd : (ibz_kk_s2_weight 2 1 tblId2).getD 0 0
      = s2EntryWeight 2 1 tblId2 ((idx_ij_s2 2 1 tblId2).getD 0 0) := by
    rw [ibz_kk_s2_weight]
    exact getD_map_q _ _ hm0
  have hidx : (idx_ij_s2 2 1 tblId2).getD 0 0 = 0 := by decide
  rw [hgd, hidx, s2EntryWeight_eq]
  rw [if_pos (show ((ibz2bz_kk 2 1 tblId2).getD 0 0 % 2) * 2
      + (ibz2bz_kk 2 1 tblId2).getD 0 0 / 2 ∈ ibz2bz_kk 2 1 tblId2 by decide)]
  rw [if_neg (show ¬((ibz2bz_kk 2 1 tblId2).getD 0 0 / 2
      ≠ (ibz2bz_kk 2 1 tblId2).getD 0 0 % 2) by decide)]
  exact hw

end PairClaims


section Transport

/-- The flags of a symmetry operation consulted by the transport layer
(`op.is_eye`, `op.is_inversion`). -/
structure SymOp where
  is_eye : Bool
  is_inversion : Bool

/-- The per-k-point bookkeeping read by `transform_mo_coeff_k` (kpts.py
lines 399-403). -/
structure TransportState where
  bz2ibz : ℕ → ℕ
  stars_ops_bz : ℕ → ℕ
  time_reversal_symm_bz : ℕ → ℕ
  ops : ℕ → SymOp

/-- Entrywise complex conjugation of a coefficient block (`mo_ibz.conj()`). -/
def conjMO (m : ℕ → ℕ → ℂ) : ℕ → ℕ → ℂ := fun i j => (starRingEnd ℂ) (m i j)

/-- `transform_mo_coeff_k(kpts, mo_coeff_ibz, k)` (kpts.py lines 388-418).
The generic branch calls the external rotation
`symm.transform_mo_coeff(cell, ibz_k_scaled, mo_ibz, op, Dmats[iop])`
(outside this module), passed in as `ext`; the `time_reversal` flag is the
integer `kpts.time_reversal_symm_bz[k]`, truthy when nonzero. -/
def transform_mo_coeff_k (st : TransportState)
    (ext : ℕ → (ℕ → ℕ → ℂ) → (ℕ → ℕ → ℂ))
    (mo_coeff_ibz : ℕ → ℕ → ℕ → ℂ) (k : ℕ) : ℕ → ℕ → ℂ :=
  let ibz_k_idx := st.bz2ibz k
  let iop := st.stars_ops_bz k
  let op := st.ops iop
  let time_reversal := st.time_reversal_symm_bz k
  let mo_ibz := mo_coeff_ibz ibz_k_idx
  if op.is_eye then
    (if time_reversal ≠ 0 then conjMO mo_ibz else mo_ibz)
  else if op.is_inversion then conjMO mo_ibz
  else (if time_reversal ≠ 0 then conjMO (ext iop mo_ibz) else ext iop mo_ibz)

/-- C6: `transform_mo_coeff_k` returns the representative coefficients
unchanged for the identity operation without time reversal; their conjugate
for the identity operation with time reversal; and their conjugate for the
inversion operation regardless of the time-reversal flag. -/
theorem transform_mo_coeff_k_cases (st : TransportState)
    (ext : ℕ → (ℕ → ℕ → ℂ) → (ℕ → ℕ → ℂ))
    (mo_coeff_ibz : ℕ → ℕ → ℕ → ℂ) (k : ℕ) :
    ((st.ops (st.stars_ops_bz k)).is_eye = true → st.time_reversal_symm_bz k = 0 →
      transform_mo_coeff_k st ext mo_coeff_ibz k = mo_coeff_ibz (st.bz2ibz k)) ∧
    ((st.ops (st.stars_ops_bz k)).is_eye = true → st.time_reversal_symm_bz k ≠ 0 →
      transform_mo_coeff_k st ext mo_coeff_ibz k = conjMO (mo_coeff_ibz (st.bz2ibz k))) ∧
    ((st.ops (st.stars_ops_bz k)).is_eye = false →
      (st.ops (st.stars_ops_bz k)).is_inversion = true →
      transform_mo_coeff_k st ext mo_coeff_ibz k
        = conjMO (mo_coeff_ibz (st.bz2ibz k))) := by
  refine ⟨fun h1 h2 => ?_, fun h1 h2 => ?_, fun h1 h2 => ?_⟩ <;>
    simp [transform_mo_coeff_k, h1, h2]

/-- A concrete transport state whose only operation is the identity. -/
def stEye : TransportState := ⟨fun _ => 0, fun _ => 0, fun _ => 0, fun _ => ⟨true, false⟩⟩

theorem transform_mo_coeff_k_cases_witness :
    (stEye.ops (stEye.stars_ops_bz 0)).is_eye = true ∧
    stEye.time_reversal_symm_bz 0 = 0 ∧
    transform_mo_coeff_k stEye (fun _ m => m) (fun _ _ _ => Complex.I) 0
      = (fun _ _ _ => Complex.I) (stEye.bz2ibz 0) :=
  ⟨rfl, rfl,
   (transform_mo_coeff_k_cases stEye (fun _ m => m) (fun _ _ _ => Complex.I) 0).1 rfl rfl⟩

end Transport

section BuildClaim

/-- The `time_reversal` attribute set by `KPoints.build` (kpts.py lines
613-618): when the cell is built,
`time_reversal = time_reversal_symmetry and not has_inversion`; an unbuilt
cell makes `build` return early, leaving the attribute at its prior value. -/
def build_time_reversal (cell_built time_reversal_symmetry has_inversion
    st_time_reversal : Bool) : Bool :=
  if cell_built then time_reversal_symmetry && !has_inversion else st_time_reversal

/-- The rotation list used by `make_kpts_ibz` (kpts.py lines 44-46): doubled
by the negated rotations exactly when `kpts.time_reversal` is set. -/
def op_rot_full {α : Type} [Neg α] (time_reversal : Bool) (op_rot : List α) : List α :=
  if time_reversal then op_rot ++ op_rot.map (fun o => -o) else op_rot

/-- C9: after `build` completes on a built cell, `time_reversal` is true iff
time-reversal symmetry was requested and the cell has no inversion symmetry;
in particular, requesting time reversal on an inversion-symmetric cell
leaves the operation set un-doubled. -/
theorem build_time_reversal_spec {α : Type} [Neg α]
    (cell_built time_reversal_symmetry has_inversion st0 : Bool) (ops : List α)
    (hcb : cell_built = true) :
    (build_time_reversal cell_built time_reversal_symmetry has_inversion st0 = true
      ↔ time_reversal_symmetry = true ∧ has_inversion = false) ∧
    (has_inversion = true →
      op_rot_full (build_time_reversal cell_built time_reversal_symmetry has_inversion st0)
        ops = ops ∧
      (op_rot_full (build_time_reversal cell_built time_reversal_symmetry has_inversion st0)
        ops).length = ops.length) := by
  subst hcb
  constructor
  · rw [build_time_reversal]
    simp
  · intro hinv
    subst hinv
    rw [build_time_reversal, op_rot_full]
    simp

theorem build_time_reversal_spec_witness :
    true = true ∧
    ((build_time_reversal true true true false = true ↔ true = true ∧ true = false) ∧
     (true = true →
       op_rot_full (build_time_reversal true true true false) [(1 : ℤ), -1] = [(1 : ℤ), -1] ∧
       (op_rot_full (build_time_reversal true true true false) [(1 : ℤ), -1]).length
         = [(1 : ℤ), -1].length)) :=
  ⟨rfl, build_time_reversal_spec true true true false [(1 : ℤ), -1] (by decide)⟩

end BuildClaim

section FrameClaim

/-- C10: running `make_kpairs_ibz` with `permutation_symmetry=True` leaves
the unreduced pair bookkeeping (`ibz2bz_kk`, `bz2ibz_kk`, every entry of
`ibz_kk_weight`) exactly as the run without the permutation step, and only
writes the two new `_s2` fields (the weight list being a fresh copy derived
from `ibz_kk_weight`). -/
theorem make_kpairs_ibz_frame (N nop : ℕ) (tbl : ℕ → ℕ → ℤ) :
    (make_kpairs_ibz N nop tbl true).ibz2bz_kk
      = (make_kpairs_ibz N nop tbl false).ibz2bz_kk ∧
    (∀ p, (make_kpairs_ibz N nop tbl true).bz2ibz_kk p
      = (make_kpairs_ibz N nop tbl false).bz2ibz_kk p) ∧
    (∀ t, (make_kpairs_ibz N nop tbl true).ibz_kk_weight t
      = (make_kpairs_ibz N nop tbl false).ibz_kk_weight t) ∧
    (make_kpairs_ibz N nop tbl true).ibz2bz_kk_s2 = some (ibz2bz_kk_s2 N nop tbl) ∧
    (make_kpairs_ibz N nop tbl true).ibz_kk_s2_weight = some (ibz_kk_s2_weight N nop tbl) ∧
    (make_kpairs_ibz N nop tbl false).ibz2bz_kk_s2 = none ∧
    (make_kpairs_ibz N nop tbl false).ibz_kk_s2_weight = none :=
  ⟨rfl, fun _ => rfl, fun _ => rfl, rfl, rfl, rfl, rfl⟩

end FrameClaim


section OccCheck

/-- `check_mo_occ_symmetry(kpts, mo_occ, tol)` (kpts.py lines 505-518):
raise "Symmetry broken" when two members of one orbit have occupation
vectors differing by at least `tol` somewhere, otherwise return the
occupations restricted to the IBZ representatives `mo_occ[ibz2bz[k]]`.
The loop structure (`for bz_k in stars; for i; for j in range(i+1, nbzk)`)
is mirrored by the nested `any` tests; occupations are exact rationals. -/
def check_mo_occ_symmetry (stars : List (List ℕ)) (nkpts_ibz : ℕ) (ibz2bz : ℕ → ℕ)
    (mo_occ : ℕ → List ℚ) (tol : ℚ) : Except String (List (List ℚ)) :=
  if stars.any (fun bz_k =>
      (List.range bz_k.length).any (fun i =>
        (List.range' (i + 1) (bz_k.length - (i + 1))).any (fun j =>
          ! (((mo_occ (bz_k.getD i 0)).zip (mo_occ (bz_k.getD j 0))).all
              (fun q => decide (|q.1 - q.2| < tol))))))
  then Except.error "Symmetry broken"
  else Except.ok ((List.range nkpts_ibz).map (fun k => mo_occ (ibz2bz k)))

/-- C7: `check_mo_occ_symmetry` raises "Symmetry broken" exactly when some
orbit has two members whose occupation vectors differ by at least the
tolerance in some entry, and otherwise returns the occupation vectors of
the representatives `mo_occ[ibz2bz[k]]`, `k = 0, …, nkpts_ibz-1`, in order. -/
theorem check_mo_occ_symmetry_spec (stars : List (List ℕ)) (nkpts_ibz : ℕ)
    (ibz2bz : ℕ → ℕ) (mo_occ : ℕ → List ℚ) (tol : ℚ) (nmo : ℕ)
    (hnmo : ∀ k, (mo_occ k).length = nmo) :
    (check_mo_occ_symmetry stars nkpts_ibz ibz2bz mo_occ tol
        = Except.error "Symmetry broken"
      ↔ ∃ bz_k ∈ stars, ∃ j < bz_k.length, ∃ i < j, ∃ m < nmo,
          tol ≤ |(mo_occ (bz_k.getD i 0)).getD m 0 - (mo_occ (bz_k.getD j 0)).getD m 0|) ∧
    ((¬ ∃ bz_k ∈ stars, ∃ j < bz_k.length, ∃ i < j, ∃ m < nmo,
          tol ≤ |(mo_occ (bz_k.getD i 0)).getD m 0 - (mo_occ (bz_k.getD j 0)).getD m 0|) →
      check_mo_occ_symmetry stars nkpts_ibz ibz2bz mo_occ tol
        = Except.ok ((List.range nkpts_ibz).map (fun k => mo_occ (ibz2bz k)))) := by
  have hPB : (stars.any (fun bz_k =>
      (List.range bz_k.length).any (fun i =>
        (List.range' (i + 1) (bz_k.length - (i + 1))).any (fun j =>
          ! (((mo_occ (bz_k.getD i 0)).zip (mo_occ (bz_k.getD j 0))).all
              (fun q => decide (|q.1 - q.2| < tol))))))) = true
      ↔ ∃ bz_k ∈ stars, ∃ j < bz_k.length, ∃ i < j, ∃ m < nmo,
          tol ≤ |(mo_occ (bz_k.getD i 0)).getD m 0 - (mo_occ (bz_k.getD j 0)).getD m 0| := by
    constructor
    · intro hany
      obtain ⟨bz_k, hbz, hin⟩ := List.any_eq_true.mp hany
      obtain ⟨i, hir, hin2⟩ := List.any_eq_true.mp hin
      obtain ⟨j, hjr, hin3⟩ := List.any_eq_true.mp hin2
      have hi : i < bz_k.length := List.mem_range.mp hir
      have hj := List.mem_range'_1.mp hjr
      have hjlen : j < bz_k.length := by omega
      have hij : i < j := by omega
      have hnall : ¬ (((mo_occ (bz_k.getD i 0)).zip (mo_occ (bz_k.getD j 0))).all
          (fun q => decide (|q.1 - q.2| < tol)) = true) := by
        rw [Bool.not_eq_true'] at hin3
        rw [hin3]
        exact Bool.false_ne_true
      rw [List.all_eq_true] at hnall
      push_neg at hnall
      obtain ⟨q, hq, hqf⟩ := hnall
      obtain ⟨m, hm, hqe⟩ := List.mem_iff_getElem.mp hq
      have hzl : ((mo_occ (bz_k.getD i 0)).zip (mo_occ (bz_k.getD j 0))).length = nmo := by
        rw [List.length_zip, hnmo, hnmo]
        exact min_self nmo
      have hma : m < (mo_occ (bz_k.getD i 0)).length := by
        rw [hnmo]
        rw [hzl] at hm
        exact hm
      have hmb : m < (mo_occ (bz_k.getD j 0)).length := by
        rw [hnmo]
        rw [hzl] at hm
        exact hm
      rw [List.getElem_zip] at hqe
      have hqf' : ¬ (|q.1 - q.2| < tol) := fun hcon => hqf (decide_eq_true hcon)
      rw [← hqe] at hqf'
      refine ⟨bz_k, hbz, j, hjlen, i, hij, m, by rw [hzl] at hm; exact hm, ?_⟩
      rw [List.getD_eq_getElem _ _ hma, List.getD_eq_getElem _ _ hmb]
      exact not_lt.mp hqf'
    · rintro ⟨bz_k, hbz, j, hjlen, i, hij, m, hm, hge⟩
      apply List.any_eq_true.mpr
      refine ⟨bz_k, hbz, ?_⟩
      apply List.any_eq_true.mpr
      refine ⟨i, List.mem_range.mpr (by omega), ?_⟩
      apply List.any_eq_true.mpr
      refine ⟨j, List.mem_range'_1.mpr ⟨by omega, by omega⟩, ?_⟩
      rw [Bool.not_eq_true']
      apply Bool.eq_false_iff.mpr
      intro hall
      rw [List.all_eq_true] at hall
      have hzl : ((mo_occ (bz_k.getD i 0)).zip (mo_occ (bz_k.getD j 0))).length = nmo := by
        rw [List.length_zip, hnmo, hnmo]
        exact min_self nmo
      have hmz : m < ((mo_occ (bz_k.getD i 0)).zip (mo_occ (bz_k.getD j 0))).length := by
        rw [hzl]
        exact hm
      have hma : m < (mo_occ (bz_k.getD i 0)).length := by
        rw [hnmo]
        exact hm
      have hmb : m < (mo_occ (bz_k.getD j 0)).length := by
        rw [hnmo]
        exact hm
      have hq := hall _ (List.getElem_mem hmz)
      rw [List.getElem_zip] at hq
      have hlt := of_decide_eq_true hq
      rw [List.getD_eq_getElem _ _ hma, List.getD_eq_getElem _ _ hmb] at hge
      exact absurd hge (not_le.mpr hlt)
  constructor
  · rw [← hPB, check_mo_occ_symmetry]
    by_cases hc : (stars.any (fun bz_k =>
        (List.range bz_k.length).any (fun i =>
          (List.range' (i + 1) (bz_k.length - (i + 1))).any (fun j =>
            ! (((mo_occ (bz_k.getD i 0)).zip (mo_occ (bz_k.getD j 0))).all
                (fun q => decide (|q.1 - q.2| < tol))))))) = true
    · rw [if_pos hc]
      exact iff_of_true rfl hc
    · rw [if_neg hc]
      exact iff_of_false (by simp) hc
  · intro hnP
    rw [check_mo_occ_symmetry, if_neg (fun hc => hnP (hPB.mp hc))]

theorem check_mo_occ_symmetry_spec_witness :
    (∀ k : ℕ, ((fun _ : ℕ => ([] : List ℚ)) k).length = 0) ∧
    check_mo_occ_symmetry [[0, 1]] 1 (fun _ => 1) (fun _ => ([] : List ℚ)) 1
      = Except.ok [[]] := by
  refine ⟨fun _ => rfl, ?_⟩
  have hok := (check_mo_occ_symmetry_spec [[0, 1]] 1 (fun _ => 1)
    (fun _ => ([] : List ℚ)) 1 0 (fun _ => rfl)).2 (by decide)
  rw [hok]
  rfl

end OccCheck


section GdfList

theorem filterMap_congr_mem {α β : Type} {f g : α → Option β} :
    ∀ (l : List α), (∀ x ∈ l, f x = g x) → l.filterMap f = l.filterMap g := by
  intro l h
  induction l with
  | nil => rfl
  | cons x l ih =>
    rw [List.filterMap_cons, List.filterMap_cons, h x (List.mem_cons_self x l),
      ih (fun y hy => h y (List.mem_cons_of_mem x hy))]

theorem flatMap_congr_mem {α β : Type} {f g : α → List β} :
    ∀ (l : List α), (∀ x ∈ l, f x = g x) → l.flatMap f = l.flatMap g := by
  intro l h
  induction l with
  | nil => rfl
  | cons x l ih =>
    rw [List.flatMap_cons, List.flatMap_cons, h x (List.mem_cons_self x l),
      ih (fun y hy => h y (List.mem_cons_of_mem x hy))]

/-- A k-point coordinate triple, with exact rationals for floating point. -/
abbrev Point := ℚ × ℚ × ℚ

/-- Modelled from the spec: `member` (imported from `pyscf.pbc.lib.kpts_helper`,
whose source is not under src/) returns the indices of the k-points in
`kpts` whose coordinates coincide with `kpt` within the tolerance; with
exact rational coordinates, coincidence is equality. -/
def member (kpt : Point) (kpts : List Point) : List ℕ :=
  (List.range kpts.length).filter (fun j => decide (kpts.getD j (0, 0, 0) = kpt))

theorem mem_member_iff {kpt : Point} {kpts : List Point} {j : ℕ}
    (hj : j < kpts.length) :
    j ∈ member kpt kpts ↔ kpts.getD j (0, 0, 0) = kpt := by
  simp only [member, List.mem_filter, List.mem_range, decide_eq_true_eq]
  exact ⟨fun h => h.2, fun h => ⟨hj, h⟩⟩

/-- `KPoints.make_gdf_kptij_lst_jk` (kpts.py lines 634-650):
`kptij_lst = [(kpts[i], kpts[i]) for i in range(nkpts)]`, then for each IBZ
representative `ki`, the pairs `(ki, kpts[j])` for the BZ indices `j` not in
`member(ki, kpts)`. -/
def make_gdf_kptij_lst_jk (kpts kpts_ibz : List Point) : List (Point × Point) :=
  ((List.range kpts.length).map (fun i => (kpts.getD i (0, 0, 0), kpts.getD i (0, 0, 0))))
  ++ (List.range kpts_ibz.length).flatMap (fun i =>
      (List.range kpts.length).filterMap (fun j =>
        if j ∈ member (kpts_ibz.getD i (0, 0, 0)) kpts then none
        else some (kpts_ibz.getD i (0, 0, 0), kpts.getD j (0, 0, 0))))

/-- The list described by the claim: second block excludes every BZ index
whose coordinates equal those of one of the representative's own orbit
members `stars[i]`. -/
def make_gdf_kptij_lst_jk_claim (kpts kpts_ibz : List Point)
    (stars : List (List ℕ)) : List (Point × Point) :=
  ((List.range kpts.length).map (fun i => (kpts.getD i (0, 0, 0), kpts.getD i (0, 0, 0))))
  ++ (List.range kpts_ibz.length).flatMap (fun i =>
      (List.range kpts.length).filterMap (fun j =>
        if (stars.getD i []).any
            (fun m => decide (kpts.getD m (0, 0, 0) = kpts.getD j (0, 0, 0)))
        then none
        else some (kpts_ibz.getD i (0, 0, 0), kpts.getD j (0, 0, 0))))

/-- The amended description: the second block excludes exactly the BZ
indices whose coordinates equal the representative's own coordinates. -/
def make_gdf_kptij_lst_jk_amended (kpts kpts_ibz : List Point) : List (Point × Point) :=
  ((List.range kpts.length).map (fun i => (kpts.getD i (0, 0, 0), kpts.getD i (0, 0, 0))))
  ++ (List.range kpts_ibz.length).flatMap (fun i =>
      (List.range kpts.length).filterMap (fun j =>
        if kpts.getD j (0, 0, 0) = kpts_ibz.getD i (0, 0, 0) then none
        else some (kpts_ibz.getD i (0, 0, 0), kpts.getD j (0, 0, 0))))

/-- C8 (amended): `make_gdf_kptij_lst_jk` returns the diagonal pairs
`(kpts[i], kpts[i])` followed by, for every IBZ representative `i` and
every BZ index `j`, the pair `(kpts_ibz[i], kpts[j])` whenever `kpts[j]`
differs from the representative's own coordinates (not from all the orbit
members' coordinates, as the claim states). -/
theorem make_gdf_kptij_lst_jk_eq_amended (kpts kpts_ibz : List Point) :
    make_gdf_kptij_lst_jk kpts kpts_ibz = make_gdf_kptij_lst_jk_amended kpts kpts_ibz := by
  rw [make_gdf_kptij_lst_jk, make_gdf_kptij_lst_jk_amended]
  congr 1
  apply flatMap_congr_mem
  intro i _
  apply filterMap_congr_mem
  intro j hjr
  have hj : j < kpts.length := List.mem_range.mp hjr
  by_cases hmem : j ∈ member (kpts_ibz.getD i (0, 0, 0)) kpts
  · rw [if_pos hmem, if_pos ((mem_member_iff hj).mp hmem)]
  · rw [if_neg hmem, if_neg (fun hc => hmem ((mem_member_iff hj).mpr hc))]

/-- The scaled coordinates `1/4` and `3/4`, built as reduced fractions so
that kernel evaluation stays available. -/
def q14 : ℚ := ⟨1, 4, by decide, by decide⟩

def q34 : ℚ := ⟨3, 4, by decide, by decide⟩

/-- C8 counterexample: the mesh `{(1/4,0,0), (3/4,0,0)}` with the inversion
orbit `stars = [[0, 1]]` and representative `(3/4,0,0)`.  The code emits the
pair `((3/4,0,0), (1/4,0,0))` because `(1/4,0,0)` differs from the
representative's coordinates, but the claim's description excludes it as an
orbit member: the two lists differ (lengths 3 and 2). -/
theorem make_gdf_kptij_lst_jk_claim_false :
    (make_gdf_kptij_lst_jk [(q14, 0, 0), (q34, 0, 0)] [(q34, 0, 0)]).length = 3 ∧
    (make_gdf_kptij_lst_jk_claim [(q14, 0, 0), (q34, 0, 0)] [(q34, 0, 0)] [[0, 1]]).length = 2 ∧
    make_gdf_kptij_lst_jk [(q14, 0, 0), (q34, 0, 0)] [(q34, 0, 0)]
      ≠ make_gdf_kptij_lst_jk_claim [(q14, 0, 0), (q34, 0, 0)] [(q34, 0, 0)] [[0, 1]] :=
  ⟨by decide, by decide, by decide⟩

end GdfList

end PbcKpts
